import Mathlib

/-!
Shallow embedding of `src/html5/runtime/vdom/element.js` (weex-3d-map).

The Element keeps two synchronized orderings, `children` (all nodes) and
`pureChildren` (only nodes with `nodeType === 1`), plus attribute / style /
class-style / event maps, and emits commands to an optional native listener.

The array/sibling helpers (`insertIndex`, `moveIndex`, `removeIndex`,
`nextElement`, `previousElement`, `linkParent`) and `Node.destroy` live in
`operation.js` / `node.js`, which are not part of the provided sources; they
are modelled from the spec (sections 2 and 6): splice-style primitives on an
ordered collection that keep the bidirectional sibling pointers consistent
with the collection's order, `moveIndex` returning the new index or -1 when
nothing changed, `nextElement`/`previousElement` walking the sibling chain
(starting at the given node) towards the nearest node with `nodeType === 1`,
`linkParent` setting `node.parentNode`, and `destroy` releasing the node.
Because sibling pointers are specified as "consistent with the collection's
order", they are modelled as the positional links of the current `children`
list (a node absent from the list has no sibling links).
-/

namespace Vdom

/-- A virtual-DOM node as far as the child-list bookkeeping is concerned:
its unique id (`nodeId`/`ref`, issued by `uniqueId()`) and its `nodeType`
(1 means Element). -/
structure Nd where
  ref : Nat
  nodeType : Nat
deriving DecidableEq, Repr

/-- `node.nodeType === 1` — the predicate that decides membership of
`pureChildren`. -/
def isElem (n : Nd) : Bool := n.nodeType == 1

/-- Commands sent to the native listener bridge (spec section 6). -/
inductive Cmd where
  | addElement (ref : Nat) (parentRef : Nat) (index : Int)
  | moveElement (ref : Nat) (parentRef : Nat) (index : Nat)
  | removeElement (ref : Nat)
  | setAttr (ref : Nat) (key value : String)
  | setStyle (ref : Nat) (key value : String)
  | setStyles (ref : Nat) (style : List (String × String))
  | addEvent (ref : Nat) (type : String)
  | removeEvent (ref : Nat) (type : String)
deriving DecidableEq, Repr

/-- Modelled from the spec: `Array.prototype.indexOf`, with `-1` rendered as
`none`. -/
def idxOf' {α : Type} [DecidableEq α] (b : α) : List α → Option Nat
  | [] => none
  | x :: xs => if x = b then some 0 else (idxOf' b xs).map (· + 1)

/-- Remove the first occurrence of `b` (JS `list.splice(list.indexOf(b), 1)`,
a no-op when `b` is absent). -/
def eraseFirst {α : Type} [DecidableEq α] (b : α) : List α → List α
  | [] => []
  | x :: xs => if x = b then xs else x :: eraseFirst b xs

/-- Insert `n` at position `pos` (JS `list.splice(pos, 0, n)`; positions past
the end append). -/
def insertAt {α : Type} (n : α) (pos : Nat) (l : List α) : List α :=
  l.take pos ++ n :: l.drop pos

/-- Modelled from the spec: `insertIndex(node, collection, position)` inserts
the node at the position and returns the index it ended up at.  The sibling
re-linking (`changeSibling`) is implicit: sibling links are derived from the
list order. -/
def insertIndex {α : Type} [DecidableEq α] (n : α) (l : List α) (pos : Nat) :
    List α × Nat :=
  (insertAt n pos l, min pos l.length)

/-- Modelled from the spec: `moveIndex(node, collection, position)` moves the
node (if present) so that it lands where inserting at `position` of the
original collection would put it, and returns the node's new index, or `none`
(JS `-1`) when the collection is unchanged. -/
def moveIndex {α : Type} [DecidableEq α] (n : α) (l : List α) (pos : Nat) :
    List α × Option Nat :=
  match idxOf' n l with
  | none => (l, none)
  | some i =>
    let j := if i < pos then pos - 1 else pos
    if j = i then (l, none)
    else (insertAt n j (eraseFirst n l), some j)

/-- Modelled from the spec: `node.nextSibling` as the positional link within
the parent's child ordering; a node not in the ordering has no sibling. -/
def nextSibling {α : Type} [DecidableEq α] : List α → α → Option α
  | [], _ => none
  | x :: xs, n => if x = n then xs.head? else nextSibling xs n

/-- Modelled from the spec: `node.previousSibling`, see `nextSibling`. -/
def previousSibling {α : Type} [DecidableEq α] : List α → α → Option α
  | [], _ => none
  | x :: xs, n =>
    if x = n then none
    else if xs.head? = some n then some x
    else previousSibling xs n

/-- Modelled from the spec: `nextElement(node)` walks `node` and its next
siblings and returns the first node with `nodeType === 1`.  For a node in the
list this is the first element-node at or after it; a detached node sees only
itself. -/
def nextElement (l : List Nd) (b : Nd) : Option Nd :=
  match idxOf' b l with
  | some k => (l.drop k).find? isElem
  | none => if isElem b then some b else none

/-- Modelled from the spec: `previousElement(node)` walks `node` and its
previous siblings and returns the first node with `nodeType === 1`. -/
def previousElement (l : List Nd) (a : Nd) : Option Nd :=
  match idxOf' a l with
  | some k => ((l.take (k + 1)).reverse).find? isElem
  | none => if isElem a then some a else none

/-- JS object lookup `m[k]` on an association list (`none` = `undefined`). -/
def alGet {V : Type} (m : List (String × V)) (k : String) : Option V :=
  match m with
  | [] => none
  | p :: rest => if p.1 = k then some p.2 else alGet rest k

/-- JS object assignment `m[k] = v`: replace in place when the key exists,
append otherwise. -/
def alSet {V : Type} (m : List (String × V)) (k : String) (v : V) :
    List (String × V) :=
  match m with
  | [] => [(k, v)]
  | p :: rest => if p.1 = k then (k, v) :: rest else p :: alSet rest k v

/-- `Object.assign(t, s)`: assign every entry of `s` onto `t`, in order. -/
def assignList {V : Type} (t : List (String × V)) :
    List (String × V) → List (String × V)
  | [] => t
  | p :: rest => assignList (alSet t p.1 p.2) rest

/-- `node.parentNode` bookkeeping: a map from node ref to parent ref.
`linkParent(node, parent)` (modelled from the spec) sets the entry; nothing
in `element.js` ever clears it. -/
def pLook (m : List (Nat × Nat)) (r : Nat) : Option Nat :=
  match m with
  | [] => none
  | p :: rest => if p.1 = r then some p.2 else pLook rest r

/-- Setting `node.parentNode` (shadowing any previous entry). -/
def pSet (m : List (Nat × Nat)) (r v : Nat) : List (Nat × Nat) := (r, v) :: m

/-- The mutable state an Element's child-mutation methods touch: its two
child orderings, the `parentNode` map of all nodes, and the set of refs on
which `destroy()` has been called (destroy is modelled from the spec: it
releases the node and its subtree; we record the node's ref). -/
structure St where
  children : List Nd
  pureChildren : List Nd
  parentOf : List (Nat × Nat)
  destroyed : List Nat
deriving DecidableEq, Repr

/-- `Element.prototype.appendChild(node)`.  `self` is `this.ref`, `L` tells
whether `getListener(this.docId)` returns a listener.  The guard
`node.parentNode && node.parentNode !== this` rejects reparenting; the
`!node.parentNode` branch links, appends to `children` (and, for an Element,
to `pureChildren`, emitting `addElement(node, this.ref, -1)`); the other
branch moves to the end of both lists, emitting `moveElement` when the pure
index changed (`index >= 0`).  `registerNode`/`docId` bookkeeping touches
only the external document registry and is not modelled. -/
def appendChild (self : Nat) (L : Bool) (s : St) (n : Nd) : St × List Cmd :=
  match pLook s.parentOf n.ref with
  | some p =>
    if p ≠ self then (s, [])
    else
      let mc := moveIndex n s.children s.children.length
      let s1 : St := { s with children := mc.1 }
      if isElem n then
        let mp := moveIndex n s.pureChildren s.pureChildren.length
        let s2 : St := { s1 with pureChildren := mp.1 }
        match mp.2 with
        | some i => (s2, if L then [Cmd.moveElement n.ref self i] else [])
        | none => (s2, [])
      else (s1, [])
  | none =>
    let s1 : St := { s with parentOf := pSet s.parentOf n.ref self,
                            children := (insertIndex n s.children s.children.length).1 }
    if isElem n then
      let s2 : St :=
        { s1 with pureChildren := (insertIndex n s.pureChildren s.pureChildren.length).1 }
      (s2, if L then [Cmd.addElement n.ref self (-1)] else [])
    else (s1, [])

/-- `Element.prototype.insertBefore(node, before)`.  After the reparent and
degenerate-position guards, the detached branch splices `node` into
`children` at `children.indexOf(before)` and, for an Element, into
`pureChildren` just before `nextElement(before)` (at the end when there is
none), emitting `addElement` with that pure index; the attached branch does
the same via `moveIndex`, emitting `moveElement` when the pure index changed.
`nextElement` is evaluated after the `children` splice, exactly as in the
source.  The `getD` fallbacks cover positions the source only reaches with a
`before` that is not a child (JS `indexOf` returning `-1`), which the stated
preconditions exclude. -/
def insertBefore (self : Nat) (L : Bool) (s : St) (n b : Nd) : St × List Cmd :=
  match pLook s.parentOf n.ref with
  | some p =>
    if p ≠ self then (s, [])
    else if n = b ∨ nextSibling s.children n = some b then (s, [])
    else
      let k := (idxOf' b s.children).getD s.children.length
      let mc := moveIndex n s.children k
      let s1 : St := { s with children := mc.1 }
      if isElem n then
        let pureBefore := nextElement mc.1 b
        let m := match pureBefore with
          | some e => (idxOf' e s.pureChildren).getD s.pureChildren.length
          | none => s.pureChildren.length
        let mp := moveIndex n s.pureChildren m
        let s2 : St := { s1 with pureChildren := mp.1 }
        match mp.2 with
        | some i => (s2, if L then [Cmd.moveElement n.ref self i] else [])
        | none => (s2, [])
      else (s1, [])
  | none =>
    if n = b ∨ nextSibling s.children n = some b then (s, [])
    else
      let k := (idxOf' b s.children).getD s.children.length
      let ins := insertIndex n s.children k
      let s1 : St := { s with parentOf := pSet s.parentOf n.ref self,
                              children := ins.1 }
      if isElem n then
        let pureBefore := nextElement ins.1 b
        let m := match pureBefore with
          | some e => (idxOf' e s.pureChildren).getD s.pureChildren.length
          | none => s.pureChildren.length
        let ip := insertIndex n s.pureChildren m
        let s2 : St := { s1 with pureChildren := ip.1 }
        (s2, if L then [Cmd.addElement n.ref self (ip.2 : Int)] else [])
      else (s1, [])

/-- `Element.prototype.insertAfter(node, after)`.  Mirror image of
`insertBefore`: the `children` position is `children.indexOf(after) + 1`
(JS `-1 + 1 = 0` when `after` is absent), the pure position is
`pureChildren.indexOf(previousElement(after)) + 1` with JS's
`indexOf(undefined) = -1` rendered through an `Int` so that a missing
previous element yields position `0`. -/
def insertAfter (self : Nat) (L : Bool) (s : St) (n a : Nd) : St × List Cmd :=
  match pLook s.parentOf n.ref with
  | some p =>
    if p ≠ self then (s, [])
    else if n = a ∨ previousSibling s.children n = some a then (s, [])
    else
      let k := match idxOf' a s.children with
        | some i => i + 1
        | none => 0
      let mc := moveIndex n s.children k
      let s1 : St := { s with children := mc.1 }
      if isElem n then
        let pi : Int := match previousElement mc.1 a with
          | some e => match idxOf' e s.pureChildren with
            | some i2 => (i2 : Int)
            | none => -1
          | none => -1
        let m := (pi + 1).toNat
        let mp := moveIndex n s.pureChildren m
        let s2 : St := { s1 with pureChildren := mp.1 }
        match mp.2 with
        | some i => (s2, if L then [Cmd.moveElement n.ref self i] else [])
        | none => (s2, [])
      else (s1, [])
  | none =>
    if n = a ∨ previousSibling s.children n = some a then (s, [])
    else
      let k := match idxOf' a s.children with
        | some i => i + 1
        | none => 0
      let ins := insertIndex n s.children k
      let s1 : St := { s with parentOf := pSet s.parentOf n.ref self,
                              children := ins.1 }
      if isElem n then
        let pi : Int := match previousElement ins.1 a with
          | some e => match idxOf' e s.pureChildren with
            | some i2 => (i2 : Int)
            | none => -1
          | none => -1
        let m := (pi + 1).toNat
        let ip := insertIndex n s.pureChildren m
        let s2 : St := { s1 with pureChildren := ip.1 }
        (s2, if L then [Cmd.addElement n.ref self (ip.2 : Int)] else [])
      else (s1, [])

/-- `Element.prototype.removeChild(node, preserved)`.  Note the guard is
`if (node.parentNode)` — any truthy parent, not necessarily `this`; then
`removeIndex` (a no-op when the node is absent) and, for an Element, the
`removeElement` command.  `if (!preserved) node.destroy()`. -/
def removeChild (self : Nat) (L : Bool) (s : St) (n : Nd) (preserved : Bool) :
    St × List Cmd :=
  let r : St × List Cmd :=
    match pLook s.parentOf n.ref with
    | none => (s, [])
    | some _ =>
      let s1 : St := { s with children := eraseFirst n s.children }
      if isElem n then
        ({ s1 with pureChildren := eraseFirst n s.pureChildren },
         if L then [Cmd.removeElement n.ref] else [])
      else (s1, [])
  if preserved then r
  else ({ r.1 with destroyed := r.1.destroyed ++ [n.ref] }, r.2)

/-- `Element.prototype.clear()`: one `removeElement` per entry of
`pureChildren` (in order, when a listener exists), `destroy()` on every
entry of `children`, then both arrays are truncated to length 0. -/
def clear (self : Nat) (L : Bool) (s : St) : St × List Cmd :=
  let cmds := if L then s.pureChildren.map (fun c => Cmd.removeElement c.ref) else []
  ({ s with children := [], pureChildren := [],
            destroyed := s.destroyed ++ s.children.map Nd.ref }, cmds)

/-- `Element.prototype.setAttr(key, value, silent)` over the `attr` map.
`silent` is `none` when the argument is omitted.  The guard is
`this.attr[key] === value && silent !== false`; the command is emitted when
`!silent && listener`. -/
def setAttr (ref : Nat) (L : Bool) (attr : List (String × String))
    (k v : String) (silent : Option Bool) :
    List (String × String) × List Cmd :=
  if alGet attr k = some v ∧ silent ≠ some false then (attr, [])
  else
    let attr' := alSet attr k v
    if silent = some true then (attr', [])
    else (attr', if L then [Cmd.setAttr ref k v] else [])

/-- `Element.prototype.setStyle(key, value, silent)` — same contract as
`setAttr` over the `style` map. -/
def setStyle (ref : Nat) (L : Bool) (style : List (String × String))
    (k v : String) (silent : Option Bool) :
    List (String × String) × List Cmd :=
  if alGet style k = some v ∧ silent ≠ some false then (style, [])
  else
    let style' := alSet style k v
    if silent = some true then (style', [])
    else (style', if L then [Cmd.setStyle ref k v] else [])

/-- `Element.prototype.toStyle()`:
`Object.assign({}, this.classStyle, this.style)`. -/
def toStyle (classStyle style : List (String × String)) :
    List (String × String) :=
  assignList (assignList [] classStyle) style

/-- `Element.prototype.setClassStyle(classStyle)`: reset every existing key
of `this.classStyle` to `''`, `Object.assign` the new mapping on top, then
unconditionally emit `setStyles(this.ref, this.toStyle())` when a listener
exists. -/
def setClassStyle (ref : Nat) (L : Bool)
    (classStyle style newCS : List (String × String)) :
    List (String × String) × List Cmd :=
  let reset := classStyle.map (fun p => (p.1, ""))
  let cs' := assignList reset newCS
  (cs', if L then [Cmd.setStyles ref (toStyle cs' style)] else [])

/-- A stored event handler; only its JS truthiness matters to `addEvent`. -/
structure Handler where
  hid : Nat
  truthy : Bool
deriving DecidableEq, Repr

/-- `Element.prototype.addEvent(type, handler)`: guarded by
`if (!this.event[type])` — the truthiness of the currently stored handler
(absent counts as falsy). -/
def addEvent (ref : Nat) (L : Bool) (event : List (String × Handler))
    (ty : String) (h : Handler) : List (String × Handler) × List Cmd :=
  let stored := match alGet event ty with
    | some g => g.truthy
    | none => false
  if stored then (event, [])
  else (alSet event ty h, if L then [Cmd.addEvent ref ty] else [])

/-- The child-mutation calls of the invariant claim. -/
inductive Op where
  | append (n : Nd)
  | insertB (n b : Nd)
  | insertA (n a : Nd)
  | remove (n : Nd) (preserved : Bool)
  | clearOp
deriving DecidableEq, Repr

/-- One mutation call on the element `self`. -/
def step (self : Nat) (L : Bool) (s : St) : Op → St × List Cmd
  | .append n => appendChild self L s n
  | .insertB n b => insertBefore self L s n b
  | .insertA n a => insertAfter self L s n a
  | .remove n preserved => removeChild self L s n preserved
  | .clearOp => clear self L s

/-- Run a sequence of mutation calls, keeping the final state. -/
def runOps (self : Nat) (L : Bool) (s : St) : List Op → St
  | [] => s
  | op :: rest => runOps self L (step self L s op).1 rest

/-- The stated precondition on the node argument (spec section 4.1): the node
is already either detached or currently a child of `this`. -/
def parentOk (self : Nat) (s : St) (n : Nd) : Bool :=
  match pLook s.parentOf n.ref with
  | none => true
  | some p => p == self

/-- The stated preconditions of one call: the moved/inserted node is detached
or a child of `this`, and the reference node of `insertBefore`/`insertAfter`
is a current child. -/
def preOp (self : Nat) (s : St) : Op → Bool
  | .append n => parentOk self s n
  | .insertB n b => parentOk self s n && decide (b ∈ s.children)
  | .insertA n a => parentOk self s n && decide (a ∈ s.children)
  | .remove n _ => parentOk self s n
  | .clearOp => true

/-- The pure-tree index the spec describes for `insertBefore`: the position
of the nearest Element at or after `before` in the (pre-insertion) child
ordering, or the end of `pureChildren` when there is none. -/
def pureInsertIndexBefore (s : St) (b : Nd) : Nat :=
  match nextElement s.children b with
  | some e => (idxOf' e s.pureChildren).getD s.pureChildren.length
  | none => s.pureChildren.length

/-- The pure-tree index the spec describes for `insertAfter`: one past the
position of the nearest Element at or before `after`, or the start of
`pureChildren` when there is none. -/
def pureInsertIndexAfter (s : St) (a : Nd) : Nat :=
  match previousElement s.children a with
  | some e => (idxOf' e s.pureChildren).getD 0 + 1
  | none => 0

/-- Every call of the sequence respects the stated preconditions in the state
it runs in. -/
def preSeq (self : Nat) (L : Bool) (s : St) : List Op → Bool
  | [] => true
  | op :: rest => preOp self s op && preSeq self L (step self L s op).1 rest

/-- The element invariant: `pureChildren` is the order-preserving filter of
`children` by `nodeType === 1`; child refs are unique (they come from
`uniqueId()`); every current child has been `linkParent`ed to `this`. -/
def Inv (self : Nat) (s : St) : Prop :=
  s.pureChildren = s.children.filter isElem
  ∧ (s.children.map Nd.ref).Nodup
  ∧ ∀ n ∈ s.children, pLook s.parentOf n.ref = some self

instance (self : Nat) (s : St) : Decidable (Inv self s) := by
  unfold Inv; infer_instance

/-! ### Toolkit lemmas about the spliced-list primitives -/

theorem idxOf'_eq_none_iff {α : Type} [DecidableEq α] (b : α) (l : List α) :
    idxOf' b l = none ↔ b ∉ l := by
  induction l with
  | nil => simp [idxOf']
  | cons x xs ih =>
    by_cases hx : x = b
    · subst hx; simp [idxOf']
    · simp [idxOf', hx, Option.map_eq_none', ih, Ne.symm hx]

theorem idxOf'_append_cons {α : Type} [DecidableEq α] {b : α} {u : List α}
    (v : List α) (hu : b ∉ u) : idxOf' b (u ++ b :: v) = some u.length := by
  induction u with
  | nil => simp [idxOf']
  | cons x xs ih =>
    have hx : x ≠ b := fun h => hu (h ▸ List.mem_cons_self x xs)
    have hxs : b ∉ xs := fun h => hu (List.mem_cons_of_mem x h)
    simp [idxOf', hx, ih hxs]

theorem idxOf'_some_split {α : Type} [DecidableEq α] {b : α} {l : List α}
    {k : Nat} (h : idxOf' b l = some k) :
    ∃ u v, l = u ++ b :: v ∧ u.length = k ∧ b ∉ u := by
  induction l generalizing k with
  | nil => simp [idxOf'] at h
  | cons x xs ih =>
    by_cases hx : x = b
    · subst hx
      simp [idxOf'] at h
      exact ⟨[], xs, by simp, by simpa using h, by simp⟩
    · simp [idxOf', hx] at h
      obtain ⟨k', hk', rfl⟩ := h
      obtain ⟨u, v, rfl, hlen, hbu⟩ := ih hk'
      exact ⟨x :: u, v, by simp, by simp [hlen], by
        simp [List.mem_cons, hbu, Ne.symm hx]⟩

theorem eraseFirst_append_cons {α : Type} [DecidableEq α] {b : α} {u : List α}
    (v : List α) (hu : b ∉ u) : eraseFirst b (u ++ b :: v) = u ++ v := by
  induction u with
  | nil => simp [eraseFirst]
  | cons x xs ih =>
    have hx : x ≠ b := fun h => hu (h ▸ List.mem_cons_self x xs)
    have hxs : b ∉ xs := fun h => hu (List.mem_cons_of_mem x h)
    simp [eraseFirst, hx, ih hxs]

theorem eraseFirst_of_not_mem {α : Type} [DecidableEq α] {b : α} {l : List α}
    (h : b ∉ l) : eraseFirst b l = l := by
  induction l with
  | nil => rfl
  | cons x xs ih =>
    have hx : x ≠ b := fun he => h (he ▸ List.mem_cons_self x xs)
    have hxs : b ∉ xs := fun hm => h (List.mem_cons_of_mem x hm)
    simp [eraseFirst, hx, ih hxs]

theorem insertAt_prefix {α : Type} (n : α) (u v : List α) :
    insertAt n u.length (u ++ v) = u ++ n :: v := by
  simp [insertAt, List.take_left, List.drop_left]

theorem insertAt_ge {α : Type} (n : α) {pos : Nat} {l : List α}
    (h : l.length ≤ pos) : insertAt n pos l = l ++ [n] := by
  simp [insertAt, List.take_of_length_le h, List.drop_of_length_le h]

theorem filter_eraseFirst_true {α : Type} [DecidableEq α] (p : α → Bool)
    {b : α} (hb : p b = true) (l : List α) :
    (eraseFirst b l).filter p = eraseFirst b (l.filter p) := by
  induction l with
  | nil => rfl
  | cons x xs ih =>
    by_cases hx : x = b
    · subst hx; simp [eraseFirst, List.filter_cons, hb]
    · by_cases hp : p x = true
      · simp [eraseFirst, hx, List.filter_cons, hp, ih]
      · simp only [Bool.not_eq_true] at hp
        simp [eraseFirst, hx, List.filter_cons, hp, ih]

theorem filter_eraseFirst_false {α : Type} [DecidableEq α] (p : α → Bool)
    {b : α} (hb : p b = false) (l : List α) :
    (eraseFirst b l).filter p = l.filter p := by
  induction l with
  | nil => rfl
  | cons x xs ih =>
    by_cases hx : x = b
    · subst hx; simp [eraseFirst, List.filter_cons, hb]
    · by_cases hp : p x = true
      · simp [eraseFirst, hx, List.filter_cons, hp, ih]
      · simp only [Bool.not_eq_true] at hp
        simp [eraseFirst, hx, List.filter_cons, hp, ih]

theorem find?_some_split {α : Type} {p : α → Bool} {l : List α} {e : α}
    (h : l.find? p = some e) :
    ∃ u v, l = u ++ e :: v ∧ (∀ x ∈ u, p x = false) ∧ p e = true := by
  induction l with
  | nil => simp at h
  | cons x xs ih =>
    by_cases hp : p x = true
    · rw [List.find?_cons_of_pos _ hp] at h
      cases h
      exact ⟨[], xs, by simp, by simp, hp⟩
    · simp only [Bool.not_eq_true] at hp
      rw [List.find?_cons_of_neg _ (by simp [hp])] at h
      obtain ⟨u, v, rfl, hu, he⟩ := ih h
      exact ⟨x :: u, v, by simp, by
        intro y hy
        rcases List.mem_cons.mp hy with rfl | hy
        · exact hp
        · exact hu y hy, he⟩

theorem perm_eraseFirst {α : Type} [DecidableEq α] {b : α} {l : List α}
    (h : b ∈ l) : (eraseFirst b l ++ [b]).Perm l := by
  induction l with
  | nil => simp at h
  | cons x xs ih =>
    by_cases hx : x = b
    · subst hx
      simp only [eraseFirst, if_pos rfl]
      exact List.perm_append_comm
    · have hb : b ∈ xs := by
        rcases List.mem_cons.mp h with h1 | h1
        · exact absurd h1.symm hx
        · exact h1
      simp only [eraseFirst, if_neg hx, List.cons_append]
      exact (ih hb).cons x

theorem mem_of_mem_eraseFirst {α : Type} [DecidableEq α] {a b : α}
    {l : List α} (h : a ∈ eraseFirst b l) : a ∈ l := by
  induction l with
  | nil => simpa [eraseFirst] using h
  | cons x xs ih =>
    by_cases hx : x = b
    · subst hx
      simp only [eraseFirst, if_pos rfl] at h
      exact List.mem_cons_of_mem _ h
    · simp only [eraseFirst, if_neg hx, List.mem_cons] at h
      rcases h with rfl | h
      · exact List.mem_cons_self _ _
      · exact List.mem_cons_of_mem _ (ih h)

theorem nextSibling_of_not_mem {α : Type} [DecidableEq α] {n : α} {l : List α}
    (h : n ∉ l) : nextSibling l n = none := by
  induction l with
  | nil => rfl
  | cons x xs ih =>
    have hx : x ≠ n := fun he => h (he ▸ List.mem_cons_self x xs)
    have hxs : n ∉ xs := fun hm => h (List.mem_cons_of_mem x hm)
    simp [nextSibling, hx, ih hxs]

theorem nextSibling_append_cons {α : Type} [DecidableEq α] {n : α}
    {u : List α} (v : List α) (hu : n ∉ u) :
    nextSibling (u ++ n :: v) n = v.head? := by
  induction u with
  | nil => simp [nextSibling]
  | cons x xs ih =>
    have hx : x ≠ n := fun he => hu (he ▸ List.mem_cons_self x xs)
    have hxs : n ∉ xs := fun hm => hu (List.mem_cons_of_mem x hm)
    simp [nextSibling, hx, ih hxs]

theorem previousSibling_append_cons {α : Type} [DecidableEq α] {n : α}
    {u : List α} (v : List α) (hu : n ∉ u) :
    previousSibling (u ++ n :: v) n = u.getLast? := by
  induction u with
  | nil => simp [previousSibling]
  | cons x xs ih =>
    have hx : x ≠ n := fun he => hu (he ▸ List.mem_cons_self x xs)
    have hxs : n ∉ xs := fun hm => hu (List.mem_cons_of_mem x hm)
    cases xs with
    | nil =>
      simp [previousSibling, hx]
    | cons y ys =>
      have hy : y ≠ n := fun he =>
        hxs (he ▸ List.mem_cons_self y ys)
      have hstep : previousSibling ((x :: y :: ys) ++ n :: v) n
          = previousSibling ((y :: ys) ++ n :: v) n := by
        show previousSibling (x :: ((y :: ys) ++ n :: v)) n = _
        rw [previousSibling]
        simp [hx, hy]
      rw [hstep, ih hxs, List.getLast?_cons_cons]

theorem previousSibling_of_not_mem {α : Type} [DecidableEq α] {n : α}
    {l : List α} (h : n ∉ l) : previousSibling l n = none := by
  induction l with
  | nil => rfl
  | cons x xs ih =>
    have hx : x ≠ n := fun he => h (he ▸ List.mem_cons_self x xs)
    have hxs : n ∉ xs := fun hm => h (List.mem_cons_of_mem x hm)
    have hh : xs.head? ≠ some n := by
      intro hc
      cases xs with
      | nil => exact Option.noConfusion hc
      | cons y ys =>
        simp only [List.head?_cons, Option.some.injEq] at hc
        exact hxs (by rw [← hc]; exact List.mem_cons_self y ys)
    simp [previousSibling, hx, hh, ih hxs]

theorem moveIndex_split {α : Type} [DecidableEq α] (n : α) (u v : List α)
    (pos : Nat) (hu : n ∉ u) :
    moveIndex n (u ++ n :: v) pos =
      (if (if u.length < pos then pos - 1 else pos) = u.length
       then (u ++ n :: v, none)
       else (insertAt n (if u.length < pos then pos - 1 else pos) (u ++ v),
             some (if u.length < pos then pos - 1 else pos))) := by
  rw [moveIndex, idxOf'_append_cons v hu, eraseFirst_append_cons v hu]

theorem moveIndex_of_not_mem {α : Type} [DecidableEq α] {n : α} {l : List α}
    (h : n ∉ l) (pos : Nat) : moveIndex n l pos = (l, none) := by
  rw [moveIndex, (idxOf'_eq_none_iff n l).mpr h]

theorem pLook_pSet (m : List (Nat × Nat)) (r v r' : Nat) :
    pLook (pSet m r v) r' = if r = r' then some v else pLook m r' := by
  simp [pSet, pLook]

/-- Moving a node to the end of the list: unchanged when it is already last,
otherwise erase-then-append, reporting the new index. -/
theorem moveIndex_to_end {α : Type} [DecidableEq α] (n : α) (u v : List α)
    (hu : n ∉ u) :
    moveIndex n (u ++ n :: v) (u ++ n :: v).length =
      (if v = [] then (u ++ n :: v, none)
       else (u ++ v ++ [n], some (u.length + v.length))) := by
  rw [moveIndex_split n u v _ hu]
  have hlen : (u ++ n :: v).length = u.length + v.length + 1 := by
    rw [List.length_append, List.length_cons]; omega
  by_cases hv : v = []
  · subst hv
    have h1 : u.length < (u ++ n :: ([] : List α)).length := by
      rw [hlen, List.length_nil]; omega
    have h2 : (u ++ n :: ([] : List α)).length - 1 = u.length := by
      rw [hlen, List.length_nil]; omega
    rw [if_pos h1, h2, if_pos rfl, if_pos rfl]
  · have hvlen : 0 < v.length := List.length_pos.mpr hv
    have h1 : u.length < (u ++ n :: v).length := by rw [hlen]; omega
    have h2 : (u ++ n :: v).length - 1 = u.length + v.length := by
      rw [hlen]; omega
    have h3 : ¬(u.length + v.length = u.length) := by omega
    rw [if_pos h1, h2, if_neg h3, if_neg hv]
    have h4 : (u ++ v).length ≤ u.length + v.length := by
      rw [List.length_append]
    rw [insertAt_ge n h4]

/-- `n ∈ l` never survives `List.filter` if it was not in `l`. -/
theorem not_mem_filter_of_not_mem {p : Nd → Bool} {n : Nd} {l : List Nd}
    (h : n ∉ l) : n ∉ l.filter p :=
  fun hm => h (List.mem_of_mem_filter hm)

/-- The three parts of `Inv`, re-established one by one.  `filterSplit`
computes the filter of a `u ++ n :: v` shape. -/
theorem filter_middle (p : Nd → Bool) (u v : List Nd) (n : Nd) :
    (u ++ n :: v).filter p =
      u.filter p ++ (if p n then n :: v.filter p else v.filter p) := by
  by_cases hp : p n
  · simp [List.filter_append, List.filter_cons, hp]
  · simp only [Bool.not_eq_true] at hp
    simp [List.filter_append, List.filter_cons, hp]

theorem children_nodup_of_inv {self : Nat} {s : St} (h : Inv self s) :
    s.children.Nodup :=
  h.2.1.of_map

theorem not_mem_children_of_none {self : Nat} {s : St} {n : Nd}
    (h : Inv self s) (hpl : pLook s.parentOf n.ref = none) :
    n ∉ s.children := by
  intro hm
  have := h.2.2 n hm
  rw [hpl] at this
  exact Option.noConfusion this

theorem ref_not_mem_of_none {self : Nat} {s : St} {n : Nd}
    (h : Inv self s) (hpl : pLook s.parentOf n.ref = none) :
    n.ref ∉ s.children.map Nd.ref := by
  intro hm
  obtain ⟨c, hc, hcref⟩ := List.mem_map.mp hm
  have := h.2.2 c hc
  rw [hcref, hpl] at this
  exact Option.noConfusion this

/-- Build `Inv` from its three components over a record literal. -/
theorem inv_mk {self : Nat} {c q : List Nd} {pm : List (Nat × Nat)}
    {d : List Nat} (h1 : q = c.filter isElem) (h2 : (c.map Nd.ref).Nodup)
    (h3 : ∀ n ∈ c, pLook pm n.ref = some self) :
    Inv self ⟨c, q, pm, d⟩ :=
  ⟨h1, h2, h3⟩

/-- `appendChild` preserves the element invariant. -/
theorem appendChild_inv (self : Nat) (L : Bool) (s : St) (n : Nd)
    (h : Inv self s) : Inv self (appendChild self L s n).1 := by
  obtain ⟨hQ, hnd, hpar⟩ := h
  have hndv : s.children.Nodup := hnd.of_map
  cases hpl : pLook s.parentOf n.ref with
  | none =>
    have hnin : n ∉ s.children :=
      not_mem_children_of_none ⟨hQ, hnd, hpar⟩ hpl
    have hrefnin : n.ref ∉ s.children.map Nd.ref :=
      ref_not_mem_of_none ⟨hQ, hnd, hpar⟩ hpl
    have hins : insertAt n s.children.length s.children = s.children ++ [n] :=
      insertAt_ge n (le_refl _)
    have hinsP :
        insertAt n s.pureChildren.length s.pureChildren
          = s.pureChildren ++ [n] :=
      insertAt_ge n (le_refl _)
    have hnd' : ((s.children ++ [n]).map Nd.ref).Nodup := by
      rw [List.map_append, List.nodup_append]
      exact ⟨hnd, List.nodup_singleton _, by
        intro a ha hb
        simp only [List.map_cons, List.map_nil, List.mem_singleton] at hb
        subst hb
        exact hrefnin ha⟩
    have hpar' : ∀ c ∈ s.children ++ [n],
        pLook (pSet s.parentOf n.ref self) c.ref = some self := by
      intro c hc
      rw [pLook_pSet]
      rcases List.mem_append.mp hc with hc | hc
      · by_cases hr : n.ref = c.ref
        · simp [hr]
        · rw [if_neg hr]; exact hpar c hc
      · simp only [List.mem_singleton] at hc
        subst hc
        simp
    by_cases he : isElem n
    · simp only [appendChild, hpl, insertIndex, hins, hinsP, if_pos he]
      refine inv_mk ?_ hnd' hpar'
      rw [hQ, List.filter_append, List.filter_cons, if_pos (by exact he)]
      simp
    · simp only [appendChild, hpl, insertIndex, hins, if_neg he]
      refine inv_mk ?_ hnd' hpar'
      rw [hQ, List.filter_append, List.filter_cons]
      simp only [Bool.not_eq_true] at he
      simp [he]
  | some p =>
    by_cases hps : p = self
    · subst hps
      have hne : ¬(p ≠ p) := fun hc => hc rfl
      cases hio : idxOf' n s.children with
      | none =>
        have hnin : n ∉ s.children := (idxOf'_eq_none_iff n _).mp hio
        have hninP : n ∉ s.pureChildren := by
          rw [hQ]; exact not_mem_filter_of_not_mem hnin
        simp only [appendChild, hpl, if_neg hne,
          moveIndex_of_not_mem hnin, moveIndex_of_not_mem hninP]
        by_cases he : isElem n
        · simp only [if_pos he]
          exact inv_mk hQ hnd hpar
        · simp only [if_neg he]
          exact inv_mk hQ hnd hpar
      | some i =>
        obtain ⟨u, v, hl, hlen, hun⟩ := idxOf'_some_split hio
        have hmv := moveIndex_to_end n u v hun
        rw [← hl] at hmv
        by_cases hv : v = []
        · -- n is already the last child: children unchanged
          rw [if_pos hv] at hmv
          subst hv
          by_cases he : isElem n
          · -- n is then also last in pureChildren: unchanged as well
            have hQform : s.pureChildren = u.filter isElem ++ n :: [] := by
              rw [hQ, hl, filter_middle, if_pos (by exact he)]
              simp
            have hunP : n ∉ u.filter isElem :=
              not_mem_filter_of_not_mem hun
            have hmvP := moveIndex_to_end n (u.filter isElem) [] hunP
            rw [if_pos rfl] at hmvP
            rw [← hQform] at hmvP
            simp only [appendChild, hpl, if_neg hne, hmv, hmvP, if_pos he]
            exact inv_mk hQ hnd hpar
          · simp only [appendChild, hpl, if_neg hne, hmv, if_neg he]
            exact inv_mk hQ hnd hpar
        · rw [if_neg hv] at hmv
          -- children' = u ++ v ++ [n]
          have hperm : (u ++ v ++ [n]).Perm s.children := by
            have h1 : eraseFirst n s.children = u ++ v := by
              rw [hl]; exact eraseFirst_append_cons v hun
            have h2 := perm_eraseFirst (l := s.children) (b := n)
              (by rw [hl]; simp)
            rw [h1] at h2
            exact h2
          have hnd' : ((u ++ v ++ [n]).map Nd.ref).Nodup :=
            ((hperm.map Nd.ref).nodup_iff).mpr hnd
          have hpar' : ∀ c ∈ u ++ v ++ [n],
              pLook s.parentOf c.ref = some p := by
            intro c hc
            exact hpar c (hperm.mem_iff.mp hc)
          by_cases he : isElem n
          · -- pureChildren also gets n moved to its end
            have hQform : s.pureChildren =
                u.filter isElem ++ n :: v.filter isElem := by
              rw [hQ, hl, filter_middle, if_pos (by exact he)]
            have hunP : n ∉ u.filter isElem :=
              not_mem_filter_of_not_mem hun
            have hmvP := moveIndex_to_end n (u.filter isElem)
              (v.filter isElem) hunP
            rw [← hQform] at hmvP
            by_cases hfv : v.filter isElem = []
            · rw [if_pos hfv] at hmvP
              simp only [appendChild, hpl, if_neg hne, hmv, hmvP, if_pos he]
              refine inv_mk ?_ hnd' hpar'
              rw [hQform, hfv, List.filter_append, List.filter_append,
                List.filter_cons, if_pos (by exact he), hfv]
              simp
            · rw [if_neg hfv] at hmvP
              simp only [appendChild, hpl, if_neg hne, hmv, hmvP, if_pos he]
              refine inv_mk ?_ hnd' hpar'
              rw [List.filter_append, List.filter_append, List.filter_cons,
                if_pos (by exact he)]
              simp
          · simp only [appendChild, hpl, if_neg hne, hmv, if_neg he]
            refine inv_mk ?_ hnd' hpar'
            rw [hQ, hl, filter_middle isElem u v n, List.filter_append,
              List.filter_append, List.filter_cons]
            simp only [Bool.not_eq_true] at he
            simp [he]
    · simp only [appendChild, hpl, if_pos hps]
      exact inv_mk hQ hnd hpar

theorem eraseFirst_sublist {α : Type} [DecidableEq α] (b : α) (l : List α) :
    (eraseFirst b l).Sublist l := by
  induction l with
  | nil => exact List.Sublist.refl _
  | cons x xs ih =>
    by_cases hx : x = b
    · simp only [eraseFirst, if_pos hx]
      exact (List.Sublist.refl xs).cons x
    · simp only [eraseFirst, if_neg hx]
      exact ih.cons₂ x

/-- `removeChild` preserves the element invariant (for any `preserved`). -/
theorem removeChild_inv (self : Nat) (L : Bool) (s : St) (n : Nd)
    (preserved : Bool) (h : Inv self s) :
    Inv self (removeChild self L s n preserved).1 := by
  obtain ⟨hQ, hnd, hpar⟩ := h
  have core : ∀ st : St,
      Inv self st → Inv self
        (if preserved then (st, ([] : List Cmd))
         else ({ st with destroyed := st.destroyed ++ [n.ref] }, [])).1 := by
    intro st hst
    by_cases hp : preserved
    · simpa [hp] using hst
    · obtain ⟨h1, h2, h3⟩ := hst
      simp only [hp, if_neg]
      exact ⟨h1, h2, h3⟩
  have hnd' : ((eraseFirst n s.children).map Nd.ref).Nodup :=
    hnd.sublist ((eraseFirst_sublist n s.children).map Nd.ref)
  have hpar' : ∀ c ∈ eraseFirst n s.children,
      pLook s.parentOf c.ref = some self :=
    fun c hc => hpar c (mem_of_mem_eraseFirst hc)
  cases hpl : pLook s.parentOf n.ref with
  | none =>
    by_cases hp : preserved
    · simp only [removeChild, hpl, if_pos hp]
      exact ⟨hQ, hnd, hpar⟩
    · simp only [removeChild, hpl, if_neg hp]
      exact ⟨hQ, hnd, hpar⟩
  | some p =>
    by_cases he : isElem n
    · have hfe : (eraseFirst n s.children).filter isElem
          = eraseFirst n s.pureChildren := by
        rw [hQ, filter_eraseFirst_true isElem he]
      by_cases hp : preserved
      · simp only [removeChild, hpl, if_pos he, if_pos hp]
        exact inv_mk hfe.symm hnd' hpar'
      · simp only [removeChild, hpl, if_pos he, if_neg hp]
        exact inv_mk hfe.symm hnd' hpar'
    · have hfe : (eraseFirst n s.children).filter isElem = s.pureChildren := by
        rw [hQ, filter_eraseFirst_false isElem (by
          simpa using he) s.children]
      by_cases hp : preserved
      · simp only [removeChild, hpl, if_neg he, if_pos hp]
        exact inv_mk hfe.symm hnd' hpar'
      · simp only [removeChild, hpl, if_neg he, if_neg hp]
        exact inv_mk hfe.symm hnd' hpar'

/-- `clear` preserves the element invariant. -/
theorem clear_inv (self : Nat) (L : Bool) (s : St) (h : Inv self s) :
    Inv self (clear self L s).1 := by
  exact inv_mk (by simp) (by simp) (by simp)

/-! ### Lemmas about `find?` over appends and reverses -/

theorem find?_append_some {α : Type} {p : α → Bool} {l₁ : List α} {e : α}
    (l₂ : List α) (h : l₁.find? p = some e) :
    (l₁ ++ l₂).find? p = some e := by
  induction l₁ with
  | nil => simp at h
  | cons x xs ih =>
    by_cases hp : p x = true
    · rw [List.find?_cons_of_pos _ hp] at h
      rw [List.cons_append, List.find?_cons_of_pos _ hp]
      exact h
    · simp only [Bool.not_eq_true] at hp
      rw [List.find?_cons_of_neg _ (by simp [hp])] at h
      rw [List.cons_append, List.find?_cons_of_neg _ (by simp [hp])]
      exact ih h

theorem find?_append_none {α : Type} {p : α → Bool} {l₁ : List α}
    (l₂ : List α) (h : l₁.find? p = none) :
    (l₁ ++ l₂).find? p = l₂.find? p := by
  induction l₁ with
  | nil => simp
  | cons x xs ih =>
    rw [List.find?_cons] at h
    cases hpx : p x with
    | true => rw [hpx] at h; exact Option.noConfusion h
    | false =>
      rw [hpx] at h
      rw [List.cons_append, List.find?_cons, hpx]
      exact ih h

theorem filter_eq_nil_of_forall {α : Type} {p : α → Bool} {l : List α}
    (h : ∀ x ∈ l, p x = false) : l.filter p = [] := by
  induction l with
  | nil => rfl
  | cons x xs ih =>
    rw [List.filter_cons, h x (List.mem_cons_self x xs)]
    exact ih (fun y hy => h y (List.mem_cons_of_mem x hy))

theorem find?_eq_none_of_forall {α : Type} {p : α → Bool} {l : List α}
    (h : ∀ x ∈ l, p x = false) : l.find? p = none :=
  List.find?_eq_none.mpr (fun x hx => by simp [h x hx])

/-- The last `p`-positive entry of `l`, read off `l.reverse.find? p`. -/
theorem reverse_find?_some_split {α : Type} {p : α → Bool} {l : List α}
    {e : α} (h : (l.reverse).find? p = some e) :
    ∃ u v, l = u ++ e :: v ∧ (∀ x ∈ v, p x = false) ∧ p e = true := by
  obtain ⟨u', v', hrev, hu', he⟩ := find?_some_split h
  refine ⟨v'.reverse, u'.reverse, ?_, ?_, he⟩
  · have := congrArg List.reverse hrev
    rw [List.reverse_reverse] at this
    rw [this]
    simp
  · intro x hx
    exact hu' x (List.mem_reverse.mp hx)

theorem reverse_find?_none {α : Type} {p : α → Bool} {l : List α}
    (h : ∀ x ∈ l, p x = false) : (l.reverse).find? p = none :=
  find?_eq_none_of_forall (fun x hx => h x (List.mem_reverse.mp hx))

/-! ### Computing `nextElement` / `previousElement` on splits -/

theorem nextElement_append_cons {b : Nd} {u : List Nd} (v : List Nd)
    (hu : b ∉ u) : nextElement (u ++ b :: v) b = (b :: v).find? isElem := by
  rw [nextElement, idxOf'_append_cons v hu]
  show ((u ++ b :: v).drop u.length).find? isElem = (b :: v).find? isElem
  rw [List.drop_left]

theorem previousElement_append_cons {a : Nd} {u : List Nd} (v : List Nd)
    (hu : a ∉ u) :
    previousElement (u ++ a :: v) a = ((u ++ [a]).reverse).find? isElem := by
  rw [previousElement, idxOf'_append_cons v hu]
  show (((u ++ a :: v).take (u.length + 1)).reverse).find? isElem = _
  have htake : (u ++ a :: v).take (u.length + 1) = u ++ [a] := by
    have h0 : u ++ a :: v = (u ++ [a]) ++ v := by simp
    have hlen : (u ++ [a]).length = u.length + 1 := by simp
    rw [h0, ← hlen, List.take_left]
  rw [htake]

/-! ### The pure-index translation lemma for the move branches

The three move branches all reposition `n` inside `children` (producing
`A ++ n :: B`) and feed `moveIndex` on `pureChildren` a raw index `m`.
After `moveIndex`'s own adjustment, a correct `m` lands the node at the
position `(A.filter isElem).length`, which keeps the two lists aligned. -/

theorem moveIndex_filter {u v A B : List Nd} {n : Nd} {Q : List Nd} {m : Nat}
    (hQ : Q = (u ++ n :: v).filter isElem)
    (he : isElem n = true)
    (hnu : n ∉ u)
    (hAB : A ++ B = u ++ v)
    (hm : (if (u.filter isElem).length < m then m - 1 else m)
            = (A.filter isElem).length) :
    (moveIndex n Q m).1 = (A ++ n :: B).filter isElem
    ∧ ((moveIndex n Q m).2
        = if (A.filter isElem).length = (u.filter isElem).length then none
          else some (A.filter isElem).length) := by
  have hQsplit : Q = u.filter isElem ++ n :: v.filter isElem := by
    rw [hQ, filter_middle, if_pos he]
  have hnFu : n ∉ u.filter isElem := not_mem_filter_of_not_mem hnu
  have hsplit := moveIndex_split n (u.filter isElem) (v.filter isElem) m hnFu
  rw [← hQsplit] at hsplit
  rw [hm] at hsplit
  have hFAB : A.filter isElem ++ B.filter isElem
      = u.filter isElem ++ v.filter isElem := by
    rw [← List.filter_append, ← List.filter_append, hAB]
  by_cases hij : (A.filter isElem).length = (u.filter isElem).length
  · rw [if_pos hij] at hsplit
    have hueq : A.filter isElem = u.filter isElem ∧
        B.filter isElem = v.filter isElem :=
      List.append_inj hFAB hij
    rw [hsplit]
    refine ⟨?_, by rw [if_pos hij]⟩
    rw [filter_middle, if_pos he, hueq.1, hueq.2, hQsplit]
  · rw [if_neg hij] at hsplit
    rw [hsplit]
    constructor
    · show insertAt n (A.filter isElem).length
          (u.filter isElem ++ v.filter isElem) = (A ++ n :: B).filter isElem
      rw [← hFAB, insertAt_prefix, filter_middle, if_pos he]
    · rw [if_neg hij]

/-- The fresh-insert counterpart of `moveIndex_filter`. -/
theorem insertAt_filter {A B : List Nd} {n : Nd} {Q : List Nd} {m : Nat}
    (hQ : Q = (A ++ B).filter isElem)
    (he : isElem n = true)
    (hm : m = (A.filter isElem).length) :
    insertAt n m Q = (A ++ n :: B).filter isElem := by
  rw [hQ, hm, List.filter_append, insertAt_prefix, filter_middle, if_pos he]

/-- The parent map after `linkParent(n, self)` still maps every node of a
collection drawn from `n` and the old children to `self`. -/
theorem pSet_par {self : Nat} {s : St} {n : Nd}
    (hpar : ∀ c ∈ s.children, pLook s.parentOf c.ref = some self)
    {c' : List Nd} (hsub : ∀ c ∈ c', c = n ∨ c ∈ s.children) :
    ∀ c ∈ c', pLook (pSet s.parentOf n.ref self) c.ref = some self := by
  intro c hc
  rw [pLook_pSet]
  rcases hsub c hc with rfl | hcm
  · simp
  · by_cases hr : n.ref = c.ref
    · simp [hr]
    · rw [if_neg hr]; exact hpar c hcm

theorem disjoint_of_nodup_append {α : Type} {l₁ l₂ : List α}
    (h : (l₁ ++ l₂).Nodup) : ∀ x ∈ l₂, x ∉ l₁ := by
  intro x hx2 hx1
  exact (List.nodup_append.mp h).2.2 hx1 hx2

/-- `insertBefore` preserves the element invariant, given the stated
precondition that `before` is a current child. -/
theorem insertBefore_inv (self : Nat) (L : Bool) (s : St) (n b : Nd)
    (h : Inv self s) (hb : b ∈ s.children) :
    Inv self (insertBefore self L s n b).1 := by
  obtain ⟨hQ, hnd, hpar⟩ := h
  have hndv : s.children.Nodup := hnd.of_map
  by_cases hdeg : n = b ∨ nextSibling s.children n = some b
  · cases hpl : pLook s.parentOf n.ref with
    | none => simp only [insertBefore, hpl, if_pos hdeg]; exact ⟨hQ, hnd, hpar⟩
    | some p =>
      by_cases hps : p = self
      · subst hps
        have hne : ¬(p ≠ p) := fun hc => hc rfl
        simp only [insertBefore, hpl, if_neg hne, if_pos hdeg]
        exact ⟨hQ, hnd, hpar⟩
      · simp only [insertBefore, hpl, if_pos hps]
        exact ⟨hQ, hnd, hpar⟩
  · have hnb : n ≠ b := fun hc => hdeg (Or.inl hc)
    cases hpl : pLook s.parentOf n.ref with
    | none =>
      -- fresh insertion of a detached node
      have hnin : n ∉ s.children :=
        not_mem_children_of_none ⟨hQ, hnd, hpar⟩ hpl
      have hrefnin : n.ref ∉ s.children.map Nd.ref :=
        ref_not_mem_of_none ⟨hQ, hnd, hpar⟩ hpl
      cases hib : idxOf' b s.children with
      | none => exact absurd hb (by rwa [← idxOf'_eq_none_iff b s.children])
      | some k =>
        obtain ⟨u, w, hl, hlen, hbu⟩ := idxOf'_some_split hib
        subst hlen
        have hins : insertAt n u.length s.children = u ++ n :: b :: w := by
          rw [hl]; exact insertAt_prefix n u (b :: w)
        have hperm : (u ++ n :: b :: w).Perm (n :: s.children) := by
          rw [hl]; exact List.perm_middle
        have hnd' : ((u ++ n :: b :: w).map Nd.ref).Nodup :=
          ((hperm.map Nd.ref).nodup_iff).mpr
            (List.nodup_cons.mpr ⟨hrefnin, hnd⟩)
        have hpar' : ∀ c ∈ u ++ n :: b :: w,
            pLook (pSet s.parentOf n.ref self) c.ref = some self :=
          pSet_par hpar (fun c hc => by
            rcases List.mem_cons.mp ((hperm.mem_iff).mp hc) with hc' | hc'
            · exact Or.inl hc'
            · exact Or.inr hc')
        by_cases he : isElem n
        · have hbun : b ∉ u ++ [n] := by
            intro hc
            rcases List.mem_append.mp hc with hc | hc
            · exact hbu hc
            · simp only [List.mem_singleton] at hc
              exact hnb hc.symm
          have hnx : nextElement (u ++ n :: b :: w) b
              = (b :: w).find? isElem := by
            have hform : u ++ n :: b :: w = (u ++ [n]) ++ b :: w := by simp
            rw [hform, nextElement_append_cons w hbun]
          cases hfind : (b :: w).find? isElem with
          | some e =>
            obtain ⟨y, z, hbw, hyf, hey⟩ := find?_some_split hfind
            have hFy : y.filter isElem = [] := filter_eq_nil_of_forall hyf
            have hQform : s.pureChildren
                = u.filter isElem ++ e :: z.filter isElem := by
              rw [hQ, hl, List.filter_append, hbw, List.filter_append, hFy,
                List.nil_append, List.filter_cons, if_pos (by exact hey)]
            have hezw : e ∈ b :: w := by
              rw [hbw]
              exact List.mem_append_right _ (List.mem_cons_self e z)
            have heu : e ∉ u := by
              have hd : ∀ x ∈ b :: w, x ∉ u :=
                disjoint_of_nodup_append (by rw [← hl]; exact hndv)
              exact hd e hezw
            have hm : idxOf' e s.pureChildren
                = some (u.filter isElem).length := by
              rw [hQform]
              exact idxOf'_append_cons _ (not_mem_filter_of_not_mem heu)
            have hpure' : insertAt n (u.filter isElem).length s.pureChildren
                = (u ++ n :: b :: w).filter isElem :=
              insertAt_filter (by rw [hQ, hl]) he rfl
            simp only [insertBefore, hpl, if_neg hdeg, hib, Option.getD_some,
              insertIndex, hins, hnx, hfind, hm, hpure', if_pos he]
            exact inv_mk rfl hnd' hpar'
          | none =>
            have hF : (b :: w).filter isElem = [] :=
              filter_eq_nil_of_forall (by
                intro x hx
                have := List.find?_eq_none.mp hfind x hx
                simpa using this)
            have hm : s.pureChildren.length = (u.filter isElem).length := by
              rw [hQ, hl, List.filter_append, hF, List.append_nil]
            have hpure' : insertAt n s.pureChildren.length s.pureChildren
                = (u ++ n :: b :: w).filter isElem := by
              rw [hm]
              exact insertAt_filter (by rw [hQ, hl]) he rfl
            simp only [insertBefore, hpl, if_neg hdeg, hib, Option.getD_some,
              insertIndex, hins, hnx, hfind, hpure', if_pos he]
            exact inv_mk rfl hnd' hpar'
        · have hfe : (u ++ n :: b :: w).filter isElem = s.pureChildren := by
            rw [hQ, hl, filter_middle]
            simp only [Bool.not_eq_true] at he
            rw [if_neg (by simp [he]), ← List.filter_append]
          simp only [insertBefore, hpl, if_neg hdeg, hib, Option.getD_some,
            insertIndex, hins, if_neg he]
          exact inv_mk hfe.symm hnd' hpar'
    | some p =>
      by_cases hps : p = self
      · subst hps
        have hne : ¬(p ≠ p) := fun hc => hc rfl
        cases hio : idxOf' n s.children with
        | none =>
          have hnin : n ∉ s.children := (idxOf'_eq_none_iff n _).mp hio
          have hninP : n ∉ s.pureChildren := by
            rw [hQ]; exact not_mem_filter_of_not_mem hnin
          have hmv : ∀ pos, moveIndex n s.children pos = (s.children, none) :=
            fun pos => moveIndex_of_not_mem hnin pos
          have hmvP : ∀ pos,
              moveIndex n s.pureChildren pos = (s.pureChildren, none) :=
            fun pos => moveIndex_of_not_mem hninP pos
          by_cases he : isElem n
          · simp only [insertBefore, hpl, if_neg hne, if_neg hdeg, hmv, hmvP,
              if_pos he]
            exact inv_mk hQ hnd hpar
          · simp only [insertBefore, hpl, if_neg hne, if_neg hdeg, hmv,
              if_neg he]
            exact inv_mk hQ hnd hpar
        | some i =>
          obtain ⟨u, v, hl, hlen, hun⟩ := idxOf'_some_split hio
          subst hlen
          have hndl : (u ++ n :: v).Nodup := hl ▸ hndv
          have hnv : n ∉ v :=
            (List.nodup_cons.mp (List.nodup_append.mp hndl).2.1).1
          have hvu : ∀ x ∈ n :: v, x ∉ u :=
            disjoint_of_nodup_append hndl
          have hbuv : b ∈ u ++ n :: v := hl ▸ hb
          have hbuorv : b ∈ u ∨ b ∈ v := by
            rcases List.mem_append.mp hbuv with h1 | h1
            · exact Or.inl h1
            · rcases List.mem_cons.mp h1 with h2 | h2
              · exact absurd h2.symm hnb
              · exact Or.inr h2
          rcases hbuorv with hbu | hbv
          · -- `before` sits in the prefix: n moves back, landing before b
            obtain ⟨u1, u2, hu⟩ := List.append_of_mem hbu
            subst hu
            have hchil : s.children = u1 ++ b :: (u2 ++ n :: v) := by
              rw [hl]; simp
            have hbu1 : b ∉ u1 := by
              have h2 : (u1 ++ b :: u2).Nodup :=
                (List.nodup_append.mp hndl).1
              exact fun hc => (List.nodup_append.mp h2).2.2 hc
                (List.mem_cons_self b u2)
            have hib2 : idxOf' b s.children = some u1.length := by
              rw [hchil]; exact idxOf'_append_cons _ hbu1
            have hmvsplit := moveIndex_split n (u1 ++ b :: u2) v u1.length hun
            rw [← hl] at hmvsplit
            have hulen : (u1 ++ b :: u2).length = u1.length + u2.length + 1 := by
              rw [List.length_append, List.length_cons]; omega
            have hcond : ¬((u1 ++ b :: u2).length < u1.length) := by
              rw [hulen]; omega
            rw [if_neg hcond] at hmvsplit
            have hji : ¬(u1.length = (u1 ++ b :: u2).length) := by
              rw [hulen]; omega
            rw [if_neg hji] at hmvsplit
            have hchq : (u1 ++ b :: u2) ++ v = u1 ++ (b :: (u2 ++ v)) := by
              simp
            rw [hchq, insertAt_prefix n u1 (b :: (u2 ++ v))] at hmvsplit
            -- children' = u1 ++ n :: (b :: (u2 ++ v))
            have hperm : (u1 ++ n :: (b :: (u2 ++ v))).Perm s.children := by
              rw [hl]
              refine List.perm_middle.trans ?_
              have h2 : (u1 ++ (b :: (u2 ++ v))) = ((u1 ++ b :: u2) ++ v) := by
                simp
              rw [h2]
              exact List.perm_middle.symm
            have hnd' : ((u1 ++ n :: (b :: (u2 ++ v))).map Nd.ref).Nodup :=
              ((hperm.map Nd.ref).nodup_iff).mpr hnd
            have hpar' : ∀ c ∈ u1 ++ n :: (b :: (u2 ++ v)),
                pLook s.parentOf c.ref = some p :=
              fun c hc => hpar c (hperm.mem_iff.mp hc)
            have hbnu1n : b ∉ u1 ++ [n] := by
              intro hc
              rcases List.mem_append.mp hc with hc | hc
              · exact hbu1 hc
              · simp only [List.mem_singleton] at hc
                exact hnb hc.symm
            have hnx : nextElement (u1 ++ n :: (b :: (u2 ++ v))) b
                = (b :: (u2 ++ v)).find? isElem := by
              have hform : u1 ++ n :: (b :: (u2 ++ v))
                  = (u1 ++ [n]) ++ b :: (u2 ++ v) := by simp
              rw [hform, nextElement_append_cons _ hbnu1n]
            by_cases he : isElem n
            · -- the pure list moves n as well; the raw index m depends on
              -- where the next element after b sits
              have hflen : ((u1 ++ b :: u2).filter isElem).length
                  = (u1.filter isElem).length
                    + ((b :: u2).filter isElem).length := by
                rw [List.filter_append, List.length_append]
              have hfind2 : (b :: (u2 ++ v)).find? isElem
                  = ((b :: u2) ++ v).find? isElem := by rw [List.cons_append]
              cases hf1 : (b :: u2).find? isElem with
              | some e =>
                obtain ⟨y, z1, hsp, hyf, hey⟩ := find?_some_split hf1
                have hFy : y.filter isElem = [] := filter_eq_nil_of_forall hyf
                have hfind : (b :: (u2 ++ v)).find? isElem = some e := by
                  rw [hfind2]; exact find?_append_some v hf1
                have hFbu2 : (b :: u2).filter isElem
                    = e :: z1.filter isElem := by
                  rw [hsp, List.filter_append, hFy, List.nil_append,
                    List.filter_cons, if_pos (by exact hey)]
                have heu1 : e ∉ u1 := by
                  have hsub : e ∈ b :: u2 := by
                    rw [hsp]
                    exact List.mem_append_right _ (List.mem_cons_self e z1)
                  have h2 : (u1 ++ b :: u2).Nodup :=
                    (List.nodup_append.mp hndl).1
                  exact disjoint_of_nodup_append h2 e hsub
                have hQform : s.pureChildren
                    = u1.filter isElem
                      ++ e :: (z1.filter isElem ++ n :: v.filter isElem) := by
                  rw [hQ, hl, filter_middle, if_pos (by exact he),
                    List.filter_append, hFbu2]
                  simp
                have hmval : idxOf' e s.pureChildren
                    = some (u1.filter isElem).length := by
                  rw [hQform]
                  exact idxOf'_append_cons _
                    (not_mem_filter_of_not_mem heu1)
                have hm : (if ((u1 ++ b :: u2).filter isElem).length
                      < (u1.filter isElem).length
                    then (u1.filter isElem).length - 1
                    else (u1.filter isElem).length)
                    = (u1.filter isElem).length := by
                  rw [if_neg (by rw [hflen]; omega)]
                have hmf := moveIndex_filter (u := u1 ++ b :: u2) (v := v)
                  (A := u1) (B := b :: (u2 ++ v))
                  (Q := s.pureChildren) (by rw [hQ, hl]) he hun (by simp) hm
                by_cases hclast : (u1.filter isElem).length
                    = ((u1 ++ b :: u2).filter isElem).length
                · have hmp2 := hmf.2
                  rw [if_pos hclast] at hmp2
                  simp only [insertBefore, hpl, if_neg hne, if_neg hdeg,
                    hib2, Option.getD_some, hmvsplit, hnx, hfind, hmval,
                    if_pos he, hmp2, hmf.1]
                  exact inv_mk rfl hnd' hpar'
                · have hmp2 := hmf.2
                  rw [if_neg hclast] at hmp2
                  simp only [insertBefore, hpl, if_neg hne, if_neg hdeg,
                    hib2, Option.getD_some, hmvsplit, hnx, hfind, hmval,
                    if_pos he, hmp2, hmf.1]
                  exact inv_mk rfl hnd' hpar'
              | none =>
                have hFbu2 : (b :: u2).filter isElem = [] :=
                  filter_eq_nil_of_forall (fun x hx => by
                    simpa using List.find?_eq_none.mp hf1 x hx)
                have hfind3 : (b :: (u2 ++ v)).find? isElem
                    = v.find? isElem := by
                  rw [hfind2]; exact find?_append_none v hf1
                have hQform0 : s.pureChildren
                    = (u1.filter isElem ++ [n]) ++ v.filter isElem := by
                  rw [hQ, hl, filter_middle, if_pos (by exact he),
                    List.filter_append, hFbu2]
                  simp
                cases hfv : v.find? isElem with
                | some e =>
                  obtain ⟨y2, z2, hsp2, hy2f, hey2⟩ := find?_some_split hfv
                  have hFy2 : y2.filter isElem = [] :=
                    filter_eq_nil_of_forall hy2f
                  have hfind : (b :: (u2 ++ v)).find? isElem = some e := by
                    rw [hfind3, hfv]
                  have hFv : v.filter isElem = e :: z2.filter isElem := by
                    rw [hsp2, List.filter_append, hFy2, List.nil_append,
                      List.filter_cons, if_pos (by exact hey2)]
                  have hev : e ∈ v := by
                    rw [hsp2]
                    exact List.mem_append_right _ (List.mem_cons_self e z2)
                  have heu1n : e ∉ u1.filter isElem ++ [n] := by
                    intro hc
                    rcases List.mem_append.mp hc with hc | hc
                    · have heu : e ∉ u1 ++ b :: u2 :=
                        hvu e (List.mem_cons_of_mem n hev)
                      exact heu (List.mem_append_left _
                        (List.mem_of_mem_filter hc))
                    · simp only [List.mem_singleton] at hc
                      subst hc
                      exact hnv hev
                  have hmval : idxOf' e s.pureChildren
                      = some (u1.filter isElem ++ [n]).length := by
                    rw [hQform0, hFv]
                    exact idxOf'_append_cons _ heu1n
                  have hm : (if ((u1 ++ b :: u2).filter isElem).length
                        < (u1.filter isElem ++ [n]).length
                      then (u1.filter isElem ++ [n]).length - 1
                      else (u1.filter isElem ++ [n]).length)
                      = (u1.filter isElem).length := by
                    have hl1 : (u1.filter isElem ++ [n]).length
                        = (u1.filter isElem).length + 1 := by simp
                    rw [if_pos (by rw [hflen, hFbu2, hl1]; simp)]
                    rw [hl1]; omega
                  have hmf := moveIndex_filter (u := u1 ++ b :: u2) (v := v)
                    (A := u1) (B := b :: (u2 ++ v))
                    (Q := s.pureChildren) (by rw [hQ, hl]) he hun (by simp) hm
                  by_cases hclast : (u1.filter isElem).length
                      = ((u1 ++ b :: u2).filter isElem).length
                  · have hmp2 := hmf.2
                    rw [if_pos hclast] at hmp2
                    simp only [insertBefore, hpl, if_neg hne, if_neg hdeg,
                      hib2, Option.getD_some, hmvsplit, hnx, hfind, hmval,
                      if_pos he, hmp2, hmf.1]
                    exact inv_mk rfl hnd' hpar'
                  · have hmp2 := hmf.2
                    rw [if_neg hclast] at hmp2
                    simp only [insertBefore, hpl, if_neg hne, if_neg hdeg,
                      hib2, Option.getD_some, hmvsplit, hnx, hfind, hmval,
                      if_pos he, hmp2, hmf.1]
                    exact inv_mk rfl hnd' hpar'
                | none =>
                  have hfind : (b :: (u2 ++ v)).find? isElem = none := by
                    rw [hfind3, hfv]
                  have hFv : v.filter isElem = [] :=
                    filter_eq_nil_of_forall (fun x hx => by
                      simpa using List.find?_eq_none.mp hfv x hx)
                  have hm : (if ((u1 ++ b :: u2).filter isElem).length
                        < s.pureChildren.length
                      then s.pureChildren.length - 1
                      else s.pureChildren.length)
                      = (u1.filter isElem).length := by
                    have hl1 : s.pureChildren.length
                        = (u1.filter isElem).length + 1 := by
                      rw [hQform0, hFv]
                      simp
                    rw [if_pos (by rw [hflen, hFbu2, hl1]; simp)]
                    rw [hl1]; omega
                  have hmf := moveIndex_filter (u := u1 ++ b :: u2) (v := v)
                    (A := u1) (B := b :: (u2 ++ v))
                    (Q := s.pureChildren) (by rw [hQ, hl]) he hun (by simp) hm
                  by_cases hclast : (u1.filter isElem).length
                      = ((u1 ++ b :: u2).filter isElem).length
                  · have hmp2 := hmf.2
                    rw [if_pos hclast] at hmp2
                    simp only [insertBefore, hpl, if_neg hne, if_neg hdeg,
                      hib2, Option.getD_some, hmvsplit, hnx, hfind,
                      if_pos he, hmp2, hmf.1]
                    exact inv_mk rfl hnd' hpar'
                  · have hmp2 := hmf.2
                    rw [if_neg hclast] at hmp2
                    simp only [insertBefore, hpl, if_neg hne, if_neg hdeg,
                      hib2, Option.getD_some, hmvsplit, hnx, hfind,
                      if_pos he, hmp2, hmf.1]
                    exact inv_mk rfl hnd' hpar'
            · -- non-element reorder: the pure list is untouched
              have hfe : (u1 ++ n :: (b :: (u2 ++ v))).filter isElem
                  = s.pureChildren := by
                rw [hQ, hl, filter_middle]
                simp only [Bool.not_eq_true] at he
                rw [filter_middle, if_neg (by simp [he]),
                  if_neg (by simp [he])]
                simp [List.filter_append]; rw [← List.cons_append, List.filter_append]
              simp only [insertBefore, hpl, if_neg hne, if_neg hdeg, hib2,
                Option.getD_some, hmvsplit, if_neg he]
              exact inv_mk hfe.symm hnd' hpar'
          · -- `before` sits in the suffix: n moves forward
            obtain ⟨v1, v2, hv⟩ := List.append_of_mem hbv
            subst hv
            have hnsib : nextSibling s.children n = (v1 ++ b :: v2).head? := by
              rw [hl]; exact nextSibling_append_cons _ hun
            have hv1 : v1 ≠ [] := by
              intro hc
              subst hc
              exact hdeg (Or.inr (by rw [hnsib]; rfl))
            have hbv1 : b ∉ v1 := by
              have h2 : (v1 ++ b :: v2).Nodup :=
                (List.nodup_cons.mp (List.nodup_append.mp hndl).2.1).2
              exact fun hc => (List.nodup_append.mp h2).2.2 hc
                (List.mem_cons_self b v2)
            have hbpre : b ∉ u ++ n :: v1 := by
              intro hc
              rcases List.mem_append.mp hc with hc | hc
              · exact hvu b (List.mem_cons_of_mem n hbv) hc
              · rcases List.mem_cons.mp hc with hc | hc
                · exact hnb hc.symm
                · exact hbv1 hc
            have hib2 : idxOf' b s.children
                = some (u ++ n :: v1).length := by
              have hform : s.children = (u ++ n :: v1) ++ b :: v2 := by
                rw [hl]; simp
              rw [hform]
              exact idxOf'_append_cons _ hbpre
            have hklen : (u ++ n :: v1).length
                = u.length + v1.length + 1 := by
              rw [List.length_append, List.length_cons]; omega
            have hmvsplit := moveIndex_split n u (v1 ++ b :: v2)
              (u ++ n :: v1).length hun
            rw [← hl] at hmvsplit
            have hcond : u.length < (u ++ n :: v1).length := by
              rw [hklen]; omega
            rw [if_pos hcond] at hmvsplit
            have hj : (u ++ n :: v1).length - 1 = u.length + v1.length := by
              rw [hklen]; omega
            rw [hj] at hmvsplit
            have hv1len : 0 < v1.length := List.length_pos.mpr hv1
            have hji : ¬(u.length + v1.length = u.length) := by omega
            rw [if_neg hji] at hmvsplit
            have hchq : u ++ (v1 ++ b :: v2) = (u ++ v1) ++ b :: v2 := by
              simp
            have hinspre : u.length + v1.length = (u ++ v1).length := by
              rw [List.length_append]
            rw [hchq, hinspre, insertAt_prefix n (u ++ v1) (b :: v2)]
              at hmvsplit
            -- children' = (u ++ v1) ++ n :: (b :: v2)
            have hperm : ((u ++ v1) ++ n :: (b :: v2)).Perm s.children := by
              rw [hl]
              refine List.perm_middle.trans ?_
              have h2 : (u ++ v1) ++ (b :: v2) = u ++ (v1 ++ b :: v2) := by
                simp
              rw [h2]
              exact List.perm_middle.symm
            have hnd' : (((u ++ v1) ++ n :: (b :: v2)).map Nd.ref).Nodup :=
              ((hperm.map Nd.ref).nodup_iff).mpr hnd
            have hpar' : ∀ c ∈ (u ++ v1) ++ n :: (b :: v2),
                pLook s.parentOf c.ref = some p :=
              fun c hc => hpar c (hperm.mem_iff.mp hc)
            have hbpren : b ∉ (u ++ v1) ++ [n] := by
              intro hc
              rcases List.mem_append.mp hc with hc | hc
              · rcases List.mem_append.mp hc with hc | hc
                · exact hvu b (List.mem_cons_of_mem n hbv) hc
                · exact hbv1 hc
              · simp only [List.mem_singleton] at hc
                exact hnb hc.symm
            have hnx : nextElement ((u ++ v1) ++ n :: (b :: v2)) b
                = (b :: v2).find? isElem := by
              have hform : (u ++ v1) ++ n :: (b :: v2)
                  = ((u ++ v1) ++ [n]) ++ b :: v2 := by simp
              rw [hform, nextElement_append_cons _ hbpren]
            by_cases he : isElem n
            · have hQform0 : s.pureChildren
                  = (u.filter isElem ++ n :: v1.filter isElem)
                    ++ (b :: v2).filter isElem := by
                rw [hQ, hl, filter_middle, if_pos (by exact he),
                  List.filter_append]
                simp
              have hAlen : ((u ++ v1).filter isElem).length
                  = (u.filter isElem).length
                    + (v1.filter isElem).length := by
                rw [List.filter_append, List.length_append]
              have hpreQlen : (u.filter isElem
                    ++ n :: v1.filter isElem).length
                  = (u.filter isElem).length
                    + (v1.filter isElem).length + 1 := by
                rw [List.length_append, List.length_cons]; omega
              cases hfind : (b :: v2).find? isElem with
              | some e =>
                obtain ⟨y, z, hsp, hyf, hey⟩ := find?_some_split hfind
                have hFy : y.filter isElem = [] :=
                  filter_eq_nil_of_forall hyf
                have hFb : (b :: v2).filter isElem
                    = e :: z.filter isElem := by
                  rw [hsp, List.filter_append, hFy, List.nil_append,
                    List.filter_cons, if_pos (by exact hey)]
                have hebv : e ∈ b :: v2 := by
                  rw [hsp]
                  exact List.mem_append_right _ (List.mem_cons_self e z)
                have hepre : e ∉ u.filter isElem ++ n :: v1.filter isElem := by
                  intro hc
                  have hma : e ∈ v1 ++ b :: v2 :=
                    List.mem_append_right _ hebv
                  rcases List.mem_append.mp hc with hc | hc
                  · exact hvu e (List.mem_cons_of_mem n hma)
                      (List.mem_of_mem_filter hc)
                  · rcases List.mem_cons.mp hc with hc | hc
                    · subst hc
                      exact hnv hma
                    · have h2 : (v1 ++ b :: v2).Nodup :=
                        (List.nodup_cons.mp
                          (List.nodup_append.mp hndl).2.1).2
                      exact disjoint_of_nodup_append h2 e hebv
                        (List.mem_of_mem_filter hc)
                have hmval : idxOf' e s.pureChildren
                    = some (u.filter isElem
                        ++ n :: v1.filter isElem).length := by
                  rw [hQform0, hFb]
                  exact idxOf'_append_cons _ hepre
                have hm : (if (u.filter isElem).length
                      < (u.filter isElem ++ n :: v1.filter isElem).length
                    then (u.filter isElem
                        ++ n :: v1.filter isElem).length - 1
                    else (u.filter isElem
                        ++ n :: v1.filter isElem).length)
                    = ((u ++ v1).filter isElem).length := by
                  rw [if_pos (by rw [hpreQlen]; omega), hpreQlen, hAlen]; omega
                have hmf := moveIndex_filter (u := u) (v := v1 ++ b :: v2)
                  (A := u ++ v1) (B := b :: v2)
                  (Q := s.pureChildren) (by rw [hQ, hl]) he hun (by simp) hm
                by_cases hclast : ((u ++ v1).filter isElem).length
                    = (u.filter isElem).length
                · have hmp2 := hmf.2
                  rw [if_pos hclast] at hmp2
                  simp only [insertBefore, hpl, if_neg hne, if_neg hdeg,
                    hib2, Option.getD_some, hmvsplit, hnx, hfind, hmval,
                    if_pos he, hmp2, hmf.1]
                  exact inv_mk rfl hnd' hpar'
                · have hmp2 := hmf.2
                  rw [if_neg hclast] at hmp2
                  simp only [insertBefore, hpl, if_neg hne, if_neg hdeg,
                    hib2, Option.getD_some, hmvsplit, hnx, hfind, hmval,
                    if_pos he, hmp2, hmf.1]
                  exact inv_mk rfl hnd' hpar'
              | none =>
                have hFb : (b :: v2).filter isElem = [] :=
                  filter_eq_nil_of_forall (fun x hx => by
                    simpa using List.find?_eq_none.mp hfind x hx)
                have hm : (if (u.filter isElem).length
                      < s.pureChildren.length
                    then s.pureChildren.length - 1
                    else s.pureChildren.length)
                    = ((u ++ v1).filter isElem).length := by
                  have hl1 : s.pureChildren.length
                      = (u.filter isElem).length
                        + (v1.filter isElem).length + 1 := by
                    rw [hQform0, hFb, List.append_nil, hpreQlen]
                  rw [if_pos (by rw [hl1]; omega), hl1, hAlen]; omega
                have hmf := moveIndex_filter (u := u) (v := v1 ++ b :: v2)
                  (A := u ++ v1) (B := b :: v2)
                  (Q := s.pureChildren) (by rw [hQ, hl]) he hun (by simp) hm
                by_cases hclast : ((u ++ v1).filter isElem).length
                    = (u.filter isElem).length
                · have hmp2 := hmf.2
                  rw [if_pos hclast] at hmp2
                  simp only [insertBefore, hpl, if_neg hne, if_neg hdeg,
                    hib2, Option.getD_some, hmvsplit, hnx, hfind,
                    if_pos he, hmp2, hmf.1]
                  exact inv_mk rfl hnd' hpar'
                · have hmp2 := hmf.2
                  rw [if_neg hclast] at hmp2
                  simp only [insertBefore, hpl, if_neg hne, if_neg hdeg,
                    hib2, Option.getD_some, hmvsplit, hnx, hfind,
                    if_pos he, hmp2, hmf.1]
                  exact inv_mk rfl hnd' hpar'
            · have hfe : ((u ++ v1) ++ n :: (b :: v2)).filter isElem
                  = s.pureChildren := by
                rw [hQ, hl, filter_middle]
                simp only [Bool.not_eq_true] at he
                rw [filter_middle, if_neg (by simp [he]),
                  if_neg (by simp [he])]
                simp [List.filter_append]
              simp only [insertBefore, hpl, if_neg hne, if_neg hdeg, hib2,
                Option.getD_some, hmvsplit, if_neg he]
              exact inv_mk hfe.symm hnd' hpar'
      · simp only [insertBefore, hpl, if_pos hps]
        exact ⟨hQ, hnd, hpar⟩

theorem find?_reverse_of_filter_ne_nil {α : Type} {p : α → Bool}
    {l : List α} (h : l.filter p ≠ []) :
    ∃ e, (l.reverse).find? p = some e := by
  have hex : ∃ x ∈ l, p x = true := by
    rcases hx : l.filter p with _ | ⟨x, xs⟩
    · exact absurd hx h
    · have hxm : x ∈ l.filter p := by
        rw [hx]; exact List.mem_cons_self _ _
      exact ⟨x, List.mem_of_mem_filter hxm, List.of_mem_filter hxm⟩
  obtain ⟨x, hxl, hpx⟩ := hex
  rcases hfind : (l.reverse).find? p with _ | e
  · exact absurd hpx (by
      simpa using List.find?_eq_none.mp hfind x (List.mem_reverse.mpr hxl))
  · exact ⟨e, rfl⟩

/-- `insertAfter` preserves the element invariant, given the stated
precondition that `after` is a current child. -/
theorem insertAfter_inv (self : Nat) (L : Bool) (s : St) (n a : Nd)
    (h : Inv self s) (ha : a ∈ s.children) :
    Inv self (insertAfter self L s n a).1 := by
  obtain ⟨hQ, hnd, hpar⟩ := h
  have hndv : s.children.Nodup := hnd.of_map
  by_cases hdeg : n = a ∨ previousSibling s.children n = some a
  · cases hpl : pLook s.parentOf n.ref with
    | none => simp only [insertAfter, hpl, if_pos hdeg]; exact ⟨hQ, hnd, hpar⟩
    | some p =>
      by_cases hps : p = self
      · subst hps
        have hne : ¬(p ≠ p) := fun hc => hc rfl
        simp only [insertAfter, hpl, if_neg hne, if_pos hdeg]
        exact ⟨hQ, hnd, hpar⟩
      · simp only [insertAfter, hpl, if_pos hps]
        exact ⟨hQ, hnd, hpar⟩
  · have hna : n ≠ a := fun hc => hdeg (Or.inl hc)
    cases hpl : pLook s.parentOf n.ref with
    | none =>
      -- fresh insertion of a detached node, right after a
      have hnin : n ∉ s.children :=
        not_mem_children_of_none ⟨hQ, hnd, hpar⟩ hpl
      have hrefnin : n.ref ∉ s.children.map Nd.ref :=
        ref_not_mem_of_none ⟨hQ, hnd, hpar⟩ hpl
      cases hia : idxOf' a s.children with
      | none => exact absurd ha (by rwa [← idxOf'_eq_none_iff a s.children])
      | some k =>
        obtain ⟨u, w, hl, hlen, hau⟩ := idxOf'_some_split hia
        subst hlen
        have hins : insertAt n (u.length + 1) s.children
            = (u ++ [a]) ++ n :: w := by
          rw [hl]
          have h1 : u ++ a :: w = (u ++ [a]) ++ w := by simp
          have h2 : u.length + 1 = (u ++ [a]).length := by simp
          rw [h1, h2]
          exact insertAt_prefix n (u ++ [a]) w
        have hperm : ((u ++ [a]) ++ n :: w).Perm (n :: s.children) := by
          rw [hl]
          refine List.perm_middle.trans ?_
          have h1 : (u ++ [a]) ++ w = u ++ a :: w := by simp
          rw [h1]
        have hnd' : (((u ++ [a]) ++ n :: w).map Nd.ref).Nodup :=
          ((hperm.map Nd.ref).nodup_iff).mpr
            (List.nodup_cons.mpr ⟨hrefnin, hnd⟩)
        have hpar' : ∀ c ∈ (u ++ [a]) ++ n :: w,
            pLook (pSet s.parentOf n.ref self) c.ref = some self :=
          pSet_par hpar (fun c hc => by
            rcases List.mem_cons.mp ((hperm.mem_iff).mp hc) with hc' | hc'
            · exact Or.inl hc'
            · exact Or.inr hc')
        have hprev : previousElement ((u ++ [a]) ++ n :: w) a
            = ((u ++ [a]).reverse).find? isElem := by
          have hform : (u ++ [a]) ++ n :: w = u ++ a :: (n :: w) := by simp
          rw [hform, previousElement_append_cons _ hau]
        have hndua : (u ++ [a]).Nodup := by
          have h1 : ((u ++ [a]) ++ w).Nodup := by
            have h2 : (u ++ [a]) ++ w = u ++ a :: w := by simp
            rw [h2, ← hl]; exact hndv
          exact (List.nodup_append.mp h1).1
        by_cases he : isElem n
        · cases hfind : ((u ++ [a]).reverse).find? isElem with
          | some e =>
            obtain ⟨y, z, hsp, hzf, hey⟩ := reverse_find?_some_split hfind
            have hFz : z.filter isElem = [] := filter_eq_nil_of_forall hzf
            have hey' : e ∉ y := by
              have h1 : (y ++ e :: z).Nodup := hsp ▸ hndua
              exact fun hc => (List.nodup_append.mp h1).2.2 hc
                (List.mem_cons_self e z)
            have hch2 : u ++ a :: w = y ++ e :: (z ++ w) := by
              have h1 : u ++ a :: w = (u ++ [a]) ++ w := by simp
              rw [h1, hsp]
              simp
            have hQform : s.pureChildren
                = y.filter isElem ++ e :: (z ++ w).filter isElem := by
              rw [hQ, hl, hch2, filter_middle, if_pos (by exact hey)]
            have hmval : idxOf' e s.pureChildren
                = some (y.filter isElem).length := by
              rw [hQform]
              exact idxOf'_append_cons _ (not_mem_filter_of_not_mem hey')
            have hti : (((y.filter isElem).length : Int) + 1).toNat
                = (y.filter isElem).length + 1 := by omega
            have hFua : (u ++ [a]).filter isElem
                = y.filter isElem ++ [e] := by
              rw [hsp, List.filter_append, List.filter_cons,
                if_pos (by exact hey), hFz]
            have hpure' : insertAt n ((y.filter isElem).length + 1)
                s.pureChildren = ((u ++ [a]) ++ n :: w).filter isElem := by
              refine insertAt_filter (Q := s.pureChildren) ?_ he ?_
              · rw [hQ, hl]
                have h1 : (u ++ [a]) ++ w = u ++ a :: w := by simp
                rw [h1]
              · rw [hFua]
                simp
            simp only [insertAfter, hpl, if_neg hdeg, hia, insertIndex,
              hins, hprev, hfind, hmval, hti, hpure', if_pos he]
            exact inv_mk rfl hnd' hpar'
          | none =>
            have hFua : (u ++ [a]).filter isElem = [] :=
              filter_eq_nil_of_forall (fun x hx => by
                simpa using List.find?_eq_none.mp hfind x
                  (List.mem_reverse.mpr hx))
            have hti : (((-1 : Int)) + 1).toNat = 0 := by omega
            have hpure' : insertAt n 0 s.pureChildren
                = ((u ++ [a]) ++ n :: w).filter isElem := by
              refine insertAt_filter (Q := s.pureChildren) ?_ he ?_
              · rw [hQ, hl]
                have h1 : (u ++ [a]) ++ w = u ++ a :: w := by simp
                rw [h1]
              · rw [hFua]
                rfl
            simp only [insertAfter, hpl, if_neg hdeg, hia, insertIndex,
              hins, hprev, hfind, hti, hpure', if_pos he]
            exact inv_mk rfl hnd' hpar'
        · have hfe : (((u ++ [a]) ++ n :: w)).filter isElem
              = s.pureChildren := by
            rw [hQ, hl, filter_middle]
            simp only [Bool.not_eq_true] at he
            rw [if_neg (by simp [he]), ← List.filter_append]
            have h1 : (u ++ [a]) ++ w = u ++ a :: w := by simp
            rw [h1]
          simp only [insertAfter, hpl, if_neg hdeg, hia, insertIndex,
            hins, if_neg he]
          exact inv_mk hfe.symm hnd' hpar'
    | some p =>
      by_cases hps : p = self
      · subst hps
        have hne : ¬(p ≠ p) := fun hc => hc rfl
        cases hio : idxOf' n s.children with
        | none =>
          have hnin : n ∉ s.children := (idxOf'_eq_none_iff n _).mp hio
          have hninP : n ∉ s.pureChildren := by
            rw [hQ]; exact not_mem_filter_of_not_mem hnin
          have hmv : ∀ pos, moveIndex n s.children pos = (s.children, none) :=
            fun pos => moveIndex_of_not_mem hnin pos
          have hmvP : ∀ pos,
              moveIndex n s.pureChildren pos = (s.pureChildren, none) :=
            fun pos => moveIndex_of_not_mem hninP pos
          by_cases he : isElem n
          · simp only [insertAfter, hpl, if_neg hne, if_neg hdeg, hmv, hmvP,
              if_pos he]
            exact inv_mk hQ hnd hpar
          · simp only [insertAfter, hpl, if_neg hne, if_neg hdeg, hmv,
              if_neg he]
            exact inv_mk hQ hnd hpar
        | some i =>
          obtain ⟨u, v, hl, hlen, hun⟩ := idxOf'_some_split hio
          subst hlen
          have hndl : (u ++ n :: v).Nodup := hl ▸ hndv
          have hnv : n ∉ v :=
            (List.nodup_cons.mp (List.nodup_append.mp hndl).2.1).1
          have hvu : ∀ x ∈ n :: v, x ∉ u :=
            disjoint_of_nodup_append hndl
          have hauv : a ∈ u ++ n :: v := hl ▸ ha
          have hauorv : a ∈ u ∨ a ∈ v := by
            rcases List.mem_append.mp hauv with h1 | h1
            · exact Or.inl h1
            · rcases List.mem_cons.mp h1 with h2 | h2
              · exact absurd h2.symm hna
              · exact Or.inr h2
          rcases hauorv with hau | hav
          · -- `after` sits in the prefix: n moves back, landing right after a
            obtain ⟨u1, u2, hu⟩ := List.append_of_mem hau
            subst hu
            have hchil : s.children = u1 ++ a :: (u2 ++ n :: v) := by
              rw [hl]; simp
            have hau1 : a ∉ u1 := by
              have h2 : (u1 ++ a :: u2).Nodup :=
                (List.nodup_append.mp hndl).1
              exact fun hc => (List.nodup_append.mp h2).2.2 hc
                (List.mem_cons_self a u2)
            have hia2 : idxOf' a s.children = some u1.length := by
              rw [hchil]; exact idxOf'_append_cons _ hau1
            have hu2ne : u2 ≠ [] := by
              intro hc
              subst hc
              refine hdeg (Or.inr ?_)
              have hprev0 : previousSibling s.children n
                  = (u1 ++ [a]).getLast? := by
                rw [hl]; exact previousSibling_append_cons _ hun
              rw [hprev0]
              simp
            have hmvsplit := moveIndex_split n (u1 ++ a :: u2) v
              (u1.length + 1) hun
            rw [← hl] at hmvsplit
            have hulen : (u1 ++ a :: u2).length
                = u1.length + u2.length + 1 := by
              rw [List.length_append, List.length_cons]; omega
            have hu2len : 0 < u2.length := List.length_pos.mpr hu2ne
            have hcond : ¬((u1 ++ a :: u2).length < u1.length + 1) := by
              rw [hulen]; omega
            rw [if_neg hcond] at hmvsplit
            have hji : ¬(u1.length + 1 = (u1 ++ a :: u2).length) := by
              rw [hulen]; omega
            rw [if_neg hji] at hmvsplit
            have hchq : (u1 ++ a :: u2) ++ v = (u1 ++ [a]) ++ (u2 ++ v) := by
              simp
            have hlen2 : u1.length + 1 = (u1 ++ [a]).length := by simp
            have hins2 : insertAt n (u1.length + 1) ((u1 ++ a :: u2) ++ v)
                = (u1 ++ [a]) ++ n :: (u2 ++ v) := by
              rw [hchq, hlen2]
              exact insertAt_prefix n (u1 ++ [a]) (u2 ++ v)
            rw [hins2] at hmvsplit
            -- children' = (u1 ++ [a]) ++ n :: (u2 ++ v)
            have hperm : ((u1 ++ [a]) ++ n :: (u2 ++ v)).Perm s.children := by
              rw [hl]
              refine List.perm_middle.trans ?_
              have h2 : (u1 ++ [a]) ++ (u2 ++ v) = (u1 ++ a :: u2) ++ v := by
                simp
              rw [h2]
              exact List.perm_middle.symm
            have hnd' : (((u1 ++ [a]) ++ n :: (u2 ++ v)).map Nd.ref).Nodup :=
              ((hperm.map Nd.ref).nodup_iff).mpr hnd
            have hpar' : ∀ c ∈ (u1 ++ [a]) ++ n :: (u2 ++ v),
                pLook s.parentOf c.ref = some p :=
              fun c hc => hpar c (hperm.mem_iff.mp hc)
            have hprev : previousElement ((u1 ++ [a]) ++ n :: (u2 ++ v)) a
                = ((u1 ++ [a]).reverse).find? isElem := by
              have hform : (u1 ++ [a]) ++ n :: (u2 ++ v)
                  = u1 ++ a :: (n :: (u2 ++ v)) := by simp
              rw [hform, previousElement_append_cons _ hau1]
            have hndua : (u1 ++ [a]).Nodup := by
              have h2 : (u1 ++ a :: u2).Nodup :=
                (List.nodup_append.mp hndl).1
              have h3 : (u1 ++ [a]).Sublist (u1 ++ a :: u2) :=
                List.Sublist.append_left ((List.nil_sublist u2).cons₂ a) u1
              exact h2.sublist h3
            by_cases he : isElem n
            · have hflen : ((u1 ++ a :: u2).filter isElem).length
                  = ((u1 ++ [a]).filter isElem).length
                    + (u2.filter isElem).length := by
                have h1 : u1 ++ a :: u2 = (u1 ++ [a]) ++ u2 := by simp
                rw [h1, List.filter_append, List.length_append]
              cases hfind : ((u1 ++ [a]).reverse).find? isElem with
              | some e =>
                obtain ⟨y, z, hsp, hzf, hey⟩ := reverse_find?_some_split hfind
                have hFz : z.filter isElem = [] :=
                  filter_eq_nil_of_forall hzf
                have hey' : e ∉ y := by
                  have h1 : (y ++ e :: z).Nodup := hsp ▸ hndua
                  exact fun hc => (List.nodup_append.mp h1).2.2 hc
                    (List.mem_cons_self e z)
                have hFua : (u1 ++ [a]).filter isElem
                    = y.filter isElem ++ [e] := by
                  rw [hsp, List.filter_append, List.filter_cons,
                    if_pos (by exact hey), hFz]
                have hch2 : s.children = y ++ e :: (z ++ (u2 ++ n :: v)) := by
                  rw [hchil]
                  have h1 : u1 ++ a :: (u2 ++ n :: v)
                      = (u1 ++ [a]) ++ (u2 ++ n :: v) := by simp
                  rw [h1, hsp]
                  simp
                have hQform : s.pureChildren
                    = y.filter isElem
                      ++ e :: (z ++ (u2 ++ n :: v)).filter isElem := by
                  rw [hQ, hch2, filter_middle, if_pos (by exact hey)]
                have hey2 : e ∉ y.filter isElem :=
                  not_mem_filter_of_not_mem hey'
                have hmval : idxOf' e s.pureChildren
                    = some (y.filter isElem).length := by
                  rw [hQform]
                  exact idxOf'_append_cons _ hey2
                have hti : (((y.filter isElem).length : Int) + 1).toNat
                    = (y.filter isElem).length + 1 := by omega
                have hm : (if ((u1 ++ a :: u2).filter isElem).length
                      < (y.filter isElem).length + 1
                    then (y.filter isElem).length + 1 - 1
                    else (y.filter isElem).length + 1)
                    = (((u1 ++ [a])).filter isElem).length := by
                  have h1 : ((u1 ++ [a]).filter isElem).length
                      = (y.filter isElem).length + 1 := by
                    rw [hFua]; simp
                  rw [if_neg (by rw [hflen, h1]; omega), h1]
                have hmf := moveIndex_filter (u := u1 ++ a :: u2) (v := v)
                  (A := u1 ++ [a]) (B := u2 ++ v)
                  (Q := s.pureChildren) (by rw [hQ, hl]) he hun (by simp) hm
                by_cases hclast : ((u1 ++ [a]).filter isElem).length
                    = ((u1 ++ a :: u2).filter isElem).length
                · have hmp2 := hmf.2
                  rw [if_pos hclast] at hmp2
                  simp only [insertAfter, hpl, if_neg hne, if_neg hdeg,
                    hia2, hmvsplit, hprev, hfind, hmval, hti,
                    if_pos he, hmp2, hmf.1]
                  exact inv_mk rfl hnd' hpar'
                · have hmp2 := hmf.2
                  rw [if_neg hclast] at hmp2
                  simp only [insertAfter, hpl, if_neg hne, if_neg hdeg,
                    hia2, hmvsplit, hprev, hfind, hmval, hti,
                    if_pos he, hmp2, hmf.1]
                  exact inv_mk rfl hnd' hpar'
              | none =>
                have hFua : (u1 ++ [a]).filter isElem = [] :=
                  filter_eq_nil_of_forall (fun x hx => by
                    simpa using List.find?_eq_none.mp hfind x
                      (List.mem_reverse.mpr hx))
                have hti : (((-1 : Int)) + 1).toNat = 0 := by omega
                have hm : (if ((u1 ++ a :: u2).filter isElem).length < 0
                    then 0 - 1 else 0)
                    = ((u1 ++ [a]).filter isElem).length := by
                  rw [if_neg (by omega), hFua]
                  rfl
                have hmf := moveIndex_filter (u := u1 ++ a :: u2) (v := v)
                  (A := u1 ++ [a]) (B := u2 ++ v)
                  (Q := s.pureChildren) (by rw [hQ, hl]) he hun (by simp) hm
                by_cases hclast : ((u1 ++ [a]).filter isElem).length
                    = ((u1 ++ a :: u2).filter isElem).length
                · have hmp2 := hmf.2
                  rw [if_pos hclast] at hmp2
                  simp only [insertAfter, hpl, if_neg hne, if_neg hdeg,
                    hia2, hmvsplit, hprev, hfind, hti,
                    if_pos he, hmp2, hmf.1]
                  exact inv_mk rfl hnd' hpar'
                · have hmp2 := hmf.2
                  rw [if_neg hclast] at hmp2
                  simp only [insertAfter, hpl, if_neg hne, if_neg hdeg,
                    hia2, hmvsplit, hprev, hfind, hti,
                    if_pos he, hmp2, hmf.1]
                  exact inv_mk rfl hnd' hpar'
            · have hfe : (((u1 ++ [a]) ++ n :: (u2 ++ v))).filter isElem
                  = s.pureChildren := by
                simp only [Bool.not_eq_true] at he
                rw [hQ, hl]
                rw [filter_middle isElem (u1 ++ [a]) (u2 ++ v) n,
                  if_neg (by simp [he])]
                rw [filter_middle isElem (u1 ++ a :: u2) v n,
                  if_neg (by simp [he])]
                by_cases hae : isElem a
                · simp [List.filter_append, List.filter_cons, hae]
                · simp only [Bool.not_eq_true] at hae
                  simp [List.filter_append, List.filter_cons, hae]
              simp only [insertAfter, hpl, if_neg hne, if_neg hdeg, hia2,
                hmvsplit, if_neg he]
              exact inv_mk hfe.symm hnd' hpar'
          · -- `after` sits in the suffix: n moves forward, right after a
            obtain ⟨v1, v2, hv⟩ := List.append_of_mem hav
            subst hv
            have hav1 : a ∉ v1 := by
              have h2 : (v1 ++ a :: v2).Nodup :=
                (List.nodup_cons.mp (List.nodup_append.mp hndl).2.1).2
              exact fun hc => (List.nodup_append.mp h2).2.2 hc
                (List.mem_cons_self a v2)
            have hapre : a ∉ u ++ n :: v1 := by
              intro hc
              rcases List.mem_append.mp hc with hc | hc
              · exact hvu a (List.mem_cons_of_mem n hav) hc
              · rcases List.mem_cons.mp hc with hc | hc
                · exact hna hc.symm
                · exact hav1 hc
            have hia2 : idxOf' a s.children
                = some (u ++ n :: v1).length := by
              have hform : s.children = (u ++ n :: v1) ++ a :: v2 := by
                rw [hl]; simp
              rw [hform]
              exact idxOf'_append_cons _ hapre
            have hklen : (u ++ n :: v1).length
                = u.length + v1.length + 1 := by
              rw [List.length_append, List.length_cons]; omega
            have hmvsplit := moveIndex_split n u (v1 ++ a :: v2)
              ((u ++ n :: v1).length + 1) hun
            rw [← hl] at hmvsplit
            have hcond : u.length < (u ++ n :: v1).length + 1 := by
              rw [hklen]; omega
            rw [if_pos hcond] at hmvsplit
            have hj : (u ++ n :: v1).length + 1 - 1
                = ((u ++ v1) ++ [a]).length := by
              rw [hklen]
              simp
              omega
            rw [hj] at hmvsplit
            have hji : ¬(((u ++ v1) ++ [a]).length = u.length) := by
              have h1 : ((u ++ v1) ++ [a]).length
                  = u.length + v1.length + 1 := by simp; omega
              rw [h1]; omega
            rw [if_neg hji] at hmvsplit
            have hchq : u ++ (v1 ++ a :: v2)
                = ((u ++ v1) ++ [a]) ++ v2 := by simp
            rw [hchq, insertAt_prefix n ((u ++ v1) ++ [a]) v2] at hmvsplit
            -- children' = ((u ++ v1) ++ [a]) ++ n :: v2
            have hperm : (((u ++ v1) ++ [a]) ++ n :: v2).Perm s.children := by
              rw [hl]
              refine List.perm_middle.trans ?_
              have h2 : ((u ++ v1) ++ [a]) ++ v2 = u ++ (v1 ++ a :: v2) := by
                simp
              rw [h2]
              exact List.perm_middle.symm
            have hnd' :
                ((((u ++ v1) ++ [a]) ++ n :: v2).map Nd.ref).Nodup :=
              ((hperm.map Nd.ref).nodup_iff).mpr hnd
            have hpar' : ∀ c ∈ ((u ++ v1) ++ [a]) ++ n :: v2,
                pLook s.parentOf c.ref = some p :=
              fun c hc => hpar c (hperm.mem_iff.mp hc)
            have hauv1 : a ∉ u ++ v1 := by
              intro hc
              rcases List.mem_append.mp hc with hc | hc
              · exact hvu a (List.mem_cons_of_mem n hav) hc
              · exact hav1 hc
            have hprev : previousElement (((u ++ v1) ++ [a]) ++ n :: v2) a
                = (((u ++ v1) ++ [a]).reverse).find? isElem := by
              have hform : ((u ++ v1) ++ [a]) ++ n :: v2
                  = (u ++ v1) ++ a :: (n :: v2) := by simp
              rw [hform, previousElement_append_cons _ hauv1]
            by_cases he : isElem n
            · have hrevsplit : ((u ++ v1) ++ [a]).reverse
                  = (v1 ++ [a]).reverse ++ u.reverse := by
                simp
              by_cases hFva : (v1 ++ [a]).filter isElem = []
              · -- no element between n's old slot and a (inclusive)
                have hvaf : ∀ x ∈ v1 ++ [a], isElem x = false := by
                  intro x hx
                  rcases hxe : isElem x with _ | _
                  · rfl
                  · exact absurd (List.mem_filter.mpr ⟨hx, hxe⟩)
                      (by rw [hFva]; exact List.not_mem_nil x)
                have hfva2 : ((v1 ++ [a]).reverse).find? isElem = none :=
                  reverse_find?_none hvaf
                have hfind0 : (((u ++ v1) ++ [a]).reverse).find? isElem
                    = (u.reverse).find? isElem := by
                  rw [hrevsplit]
                  exact find?_append_none _ hfva2
                cases hfindu : (u.reverse).find? isElem with
                | some e =>
                  obtain ⟨y, z, hsp, hzf, hey⟩ :=
                    reverse_find?_some_split hfindu
                  have hFz : z.filter isElem = [] :=
                    filter_eq_nil_of_forall hzf
                  have hndu : u.Nodup := (List.nodup_append.mp hndl).1
                  have hey' : e ∉ y := by
                    have h1 : (y ++ e :: z).Nodup := hsp ▸ hndu
                    exact fun hc => (List.nodup_append.mp h1).2.2 hc
                      (List.mem_cons_self e z)
                  have hFu : u.filter isElem = y.filter isElem ++ [e] := by
                    rw [hsp, List.filter_append, List.filter_cons,
                      if_pos (by exact hey), hFz]
                  have hch2 : s.children
                      = y ++ e :: (z ++ n :: (v1 ++ a :: v2)) := by
                    rw [hl, hsp]
                    simp
                  have hQform : s.pureChildren
                      = y.filter isElem
                        ++ e :: (z ++ n :: (v1 ++ a :: v2)).filter isElem := by
                    rw [hQ, hch2, filter_middle, if_pos (by exact hey)]
                  have hmval : idxOf' e s.pureChildren
                      = some (y.filter isElem).length := by
                    rw [hQform]
                    exact idxOf'_append_cons _
                      (not_mem_filter_of_not_mem hey')
                  have hti : (((y.filter isElem).length : Int) + 1).toNat
                      = (y.filter isElem).length + 1 := by omega
                  have hFA : (((u ++ v1) ++ [a]).filter isElem).length
                      = (y.filter isElem).length + 1 := by
                    have h1 : (u ++ v1) ++ [a] = u ++ (v1 ++ [a]) := by simp
                    rw [h1, List.filter_append, hFva, List.append_nil, hFu]
                    simp
                  have hm : (if (u.filter isElem).length
                        < (y.filter isElem).length + 1
                      then (y.filter isElem).length + 1 - 1
                      else (y.filter isElem).length + 1)
                      = (((u ++ v1) ++ [a]).filter isElem).length := by
                    have h1 : (u.filter isElem).length
                        = (y.filter isElem).length + 1 := by
                      rw [hFu]; simp
                    rw [if_neg (by rw [h1]; omega), hFA]
                  have hmf := moveIndex_filter (u := u) (v := v1 ++ a :: v2)
                    (A := (u ++ v1) ++ [a]) (B := v2)
                    (Q := s.pureChildren) (by rw [hQ, hl]) he hun (by simp) hm
                  by_cases hclast : (((u ++ v1) ++ [a]).filter isElem).length
                      = (u.filter isElem).length
                  · have hmp2 := hmf.2
                    rw [if_pos hclast] at hmp2
                    simp only [insertAfter, hpl, if_neg hne, if_neg hdeg,
                      hia2, hmvsplit, hprev, hfind0, hfindu, hmval, hti,
                      if_pos he, hmp2, hmf.1]
                    exact inv_mk rfl hnd' hpar'
                  · have hmp2 := hmf.2
                    rw [if_neg hclast] at hmp2
                    simp only [insertAfter, hpl, if_neg hne, if_neg hdeg,
                      hia2, hmvsplit, hprev, hfind0, hfindu, hmval, hti,
                      if_pos he, hmp2, hmf.1]
                    exact inv_mk rfl hnd' hpar'
                | none =>
                  have hFu : u.filter isElem = [] :=
                    filter_eq_nil_of_forall (fun x hx => by
                      simpa using List.find?_eq_none.mp hfindu x
                        (List.mem_reverse.mpr hx))
                  have hti : (((-1 : Int)) + 1).toNat = 0 := by omega
                  have hFA : (((u ++ v1) ++ [a]).filter isElem).length
                      = 0 := by
                    have h1 : (u ++ v1) ++ [a] = u ++ (v1 ++ [a]) := by simp
                    rw [h1, List.filter_append, hFva, List.append_nil, hFu]
                    rfl
                  have hm : (if (u.filter isElem).length < 0
                      then 0 - 1 else 0)
                      = (((u ++ v1) ++ [a]).filter isElem).length := by
                    rw [if_neg (by omega), hFA]
                  have hmf := moveIndex_filter (u := u) (v := v1 ++ a :: v2)
                    (A := (u ++ v1) ++ [a]) (B := v2)
                    (Q := s.pureChildren) (by rw [hQ, hl]) he hun (by simp) hm
                  by_cases hclast : (((u ++ v1) ++ [a]).filter isElem).length
                      = (u.filter isElem).length
                  · have hmp2 := hmf.2
                    rw [if_pos hclast] at hmp2
                    simp only [insertAfter, hpl, if_neg hne, if_neg hdeg,
                      hia2, hmvsplit, hprev, hfind0, hfindu, hti,
                      if_pos he, hmp2, hmf.1]
                    exact inv_mk rfl hnd' hpar'
                  · have hmp2 := hmf.2
                    rw [if_neg hclast] at hmp2
                    simp only [insertAfter, hpl, if_neg hne, if_neg hdeg,
                      hia2, hmvsplit, hprev, hfind0, hfindu, hti,
                      if_pos he, hmp2, hmf.1]
                    exact inv_mk rfl hnd' hpar'
              · -- an element exists between n's old slot and a
                obtain ⟨e, hfva2⟩ := find?_reverse_of_filter_ne_nil hFva
                obtain ⟨y2, z2, hsp2, hz2f, hey2⟩ :=
                  reverse_find?_some_split hfva2
                have hFz2 : z2.filter isElem = [] :=
                  filter_eq_nil_of_forall hz2f
                have hfind0 : (((u ++ v1) ++ [a]).reverse).find? isElem
                    = some e := by
                  rw [hrevsplit]
                  exact find?_append_some _ hfva2
                have hev : e ∈ v1 ++ [a] := by
                  rw [hsp2]
                  exact List.mem_append_right _ (List.mem_cons_self e z2)
                have hndva : (v1 ++ a :: v2).Nodup :=
                  (List.nodup_cons.mp (List.nodup_append.mp hndl).2.1).2
                have hey' : e ∉ y2 := by
                  have h1 : (y2 ++ e :: z2).Nodup := by
                    rw [← hsp2]
                    have h2 : (v1 ++ [a]).Sublist (v1 ++ a :: v2) :=
                      List.Sublist.append_left
                        ((List.nil_sublist v2).cons₂ a) v1
                    exact hndva.sublist h2
                  exact fun hc => (List.nodup_append.mp h1).2.2 hc
                    (List.mem_cons_self e z2)
                have hFva2 : (v1 ++ [a]).filter isElem
                    = y2.filter isElem ++ [e] := by
                  rw [hsp2, List.filter_append, List.filter_cons,
                    if_pos (by exact hey2), hFz2]
                have hepre : e ∉ u.filter isElem ++ n :: y2.filter isElem := by
                  intro hc
                  have hemem : e ∈ v1 ++ a :: v2 := by
                    rcases List.mem_append.mp hev with hc2 | hc2
                    · exact List.mem_append_left _ hc2
                    · simp only [List.mem_singleton] at hc2
                      subst hc2
                      exact List.mem_append_right _
                        (List.mem_cons_self e v2)
                  rcases List.mem_append.mp hc with hc | hc
                  · exact hvu e (List.mem_cons_of_mem n hemem)
                      (List.mem_of_mem_filter hc)
                  · rcases List.mem_cons.mp hc with hc | hc
                    · subst hc
                      exact hnv hemem
                    · exact hey' (List.mem_of_mem_filter hc)
                have hch2 : s.children
                    = (u ++ n :: y2) ++ e :: (z2 ++ v2) := by
                  rw [hl]
                  have h1 : v1 ++ a :: v2 = (v1 ++ [a]) ++ v2 := by simp
                  rw [h1, hsp2]
                  simp
                have hQform : s.pureChildren
                    = (u.filter isElem ++ n :: y2.filter isElem)
                      ++ e :: (z2 ++ v2).filter isElem := by
                  rw [hQ, hch2, filter_middle, if_pos (by exact hey2)]
                  have h1 : (u ++ n :: y2).filter isElem
                      = u.filter isElem ++ n :: y2.filter isElem := by
                    rw [filter_middle, if_pos (by exact he)]
                  rw [h1]
                have hmval : idxOf' e s.pureChildren
                    = some (u.filter isElem
                        ++ n :: y2.filter isElem).length := by
                  rw [hQform]
                  exact idxOf'_append_cons _ hepre
                have hplen : (u.filter isElem
                      ++ n :: y2.filter isElem).length
                    = (u.filter isElem).length
                      + (y2.filter isElem).length + 1 := by
                  rw [List.length_append, List.length_cons]; omega
                have hti : ((((u.filter isElem
                      ++ n :: y2.filter isElem).length : Int)) + 1).toNat
                    = (u.filter isElem ++ n :: y2.filter isElem).length
                      + 1 := by omega
                have hFA : (((u ++ v1) ++ [a]).filter isElem).length
                    = (u.filter isElem).length
                      + (y2.filter isElem).length + 1 := by
                  have h1 : (u ++ v1) ++ [a] = u ++ (v1 ++ [a]) := by simp
                  rw [h1, List.filter_append, hFva2, List.length_append,
                    List.length_append]
                  simp
                  omega
                have hm : (if (u.filter isElem).length
                      < (u.filter isElem ++ n :: y2.filter isElem).length + 1
                    then (u.filter isElem
                        ++ n :: y2.filter isElem).length + 1 - 1
                    else (u.filter isElem
                        ++ n :: y2.filter isElem).length + 1)
                    = (((u ++ v1) ++ [a]).filter isElem).length := by
                  rw [if_pos (by rw [hplen]; omega), hplen, hFA]
                  omega
                have hmf := moveIndex_filter (u := u) (v := v1 ++ a :: v2)
                  (A := (u ++ v1) ++ [a]) (B := v2)
                  (Q := s.pureChildren) (by rw [hQ, hl]) he hun (by simp) hm
                by_cases hclast : (((u ++ v1) ++ [a]).filter isElem).length
                    = (u.filter isElem).length
                · have hmp2 := hmf.2
                  rw [if_pos hclast] at hmp2
                  simp only [insertAfter, hpl, if_neg hne, if_neg hdeg,
                    hia2, hmvsplit, hprev, hfind0, hmval, hti,
                    if_pos he, hmp2, hmf.1]
                  exact inv_mk rfl hnd' hpar'
                · have hmp2 := hmf.2
                  rw [if_neg hclast] at hmp2
                  simp only [insertAfter, hpl, if_neg hne, if_neg hdeg,
                    hia2, hmvsplit, hprev, hfind0, hmval, hti,
                    if_pos he, hmp2, hmf.1]
                  exact inv_mk rfl hnd' hpar'
            · have hfe : ((((u ++ v1) ++ [a]) ++ n :: v2)).filter isElem
                  = s.pureChildren := by
                simp only [Bool.not_eq_true] at he
                rw [hQ, hl]
                rw [filter_middle isElem ((u ++ v1) ++ [a]) v2 n,
                  if_neg (by simp [he])]
                rw [filter_middle isElem u (v1 ++ a :: v2) n,
                  if_neg (by simp [he])]
                by_cases hae : isElem a
                · simp [List.filter_append, List.filter_cons, hae]
                · simp only [Bool.not_eq_true] at hae
                  simp [List.filter_append, List.filter_cons, hae]
              simp only [insertAfter, hpl, if_neg hne, if_neg hdeg, hia2,
                hmvsplit, if_neg he]
              exact inv_mk hfe.symm hnd' hpar'
      · simp only [insertAfter, hpl, if_pos hps]
        exact ⟨hQ, hnd, hpar⟩

/-! ### The invariant across whole call sequences -/

theorem step_inv (self : Nat) (L : Bool) (s : St) (op : Op)
    (h : Inv self s) (hp : preOp self s op = true) :
    Inv self (step self L s op).1 := by
  cases op with
  | append n => exact appendChild_inv self L s n h
  | insertB n b =>
    have hb : b ∈ s.children := by
      simp only [preOp, Bool.and_eq_true, decide_eq_true_eq] at hp
      exact hp.2
    exact insertBefore_inv self L s n b h hb
  | insertA n a =>
    have ha : a ∈ s.children := by
      simp only [preOp, Bool.and_eq_true, decide_eq_true_eq] at hp
      exact hp.2
    exact insertAfter_inv self L s n a h ha
  | remove n preserved => exact removeChild_inv self L s n preserved h
  | clearOp => exact clear_inv self L s h

theorem runOps_inv (self : Nat) (L : Bool) (s : St) (ops : List Op)
    (h : Inv self s) (hpre : preSeq self L s ops = true) :
    Inv self (runOps self L s ops) := by
  induction ops generalizing s with
  | nil => simpa [runOps] using h
  | cons op rest ih =>
    simp only [preSeq, Bool.and_eq_true] at hpre
    exact ih _ (step_inv self L s op h hpre.1) hpre.2

theorem preSeq_take (self : Nat) (L : Bool) (s : St) (ops : List Op)
    (hpre : preSeq self L s ops = true) (i : Nat) :
    preSeq self L s (ops.take i) = true := by
  induction ops generalizing s i with
  | nil => simp [preSeq]
  | cons op rest ih =>
    cases i with
    | zero => simp [preSeq]
    | succ j =>
      simp only [preSeq, Bool.and_eq_true] at hpre ⊢
      exact ⟨hpre.1, ih _ hpre.2 j⟩

/-! ### Small facts used by the per-claim theorems -/

theorem idxOf'_lt_length {α : Type} [DecidableEq α] {x : α} {l : List α}
    {k : Nat} (h : idxOf' x l = some k) : k < l.length := by
  obtain ⟨u, v, rfl, rfl, _⟩ := idxOf'_some_split h
  rw [List.length_append, List.length_cons]
  omega

theorem getLast?_append_cons {α : Type} (u : List α) (x : α) (v : List α) :
    (u ++ x :: v).getLast? = (x :: v).getLast? := by
  induction u with
  | nil => rfl
  | cons y ys ih =>
    rw [List.cons_append, ← ih]
    cases hys : ys ++ x :: v with
    | nil => exact absurd hys (by simp)
    | cons z zs => rw [List.getLast?_cons_cons]

theorem mem_of_getLast?_cons {α : Type} {x : α} {v : List α} {y : α}
    (h : (x :: v).getLast? = some y) : y ∈ x :: v := by
  induction v generalizing x with
  | nil =>
    simp only [List.getLast?_singleton] at h
    cases h
    exact List.mem_cons_self _ _
  | cons z zs ih =>
    rw [List.getLast?_cons_cons] at h
    exact List.mem_cons_of_mem x (ih h)

theorem alGet_alSet_self {V : Type} (m : List (String × V)) (k : String)
    (v : V) : alGet (alSet m k v) k = some v := by
  induction m with
  | nil => simp [alSet, alGet]
  | cons q rest ih =>
    by_cases hk : q.1 = k
    · simp [alSet, alGet, hk]
    · simp [alSet, alGet, hk, ih]

theorem alGet_alSet_ne {V : Type} (m : List (String × V)) (k k' : String)
    (v : V) (h : k' ≠ k) : alGet (alSet m k v) k' = alGet m k' := by
  induction m with
  | nil => simp [alSet, alGet, Ne.symm h]
  | cons q rest ih =>
    by_cases hk : q.1 = k
    · rw [alSet, if_pos hk, alGet,
        if_neg (show ¬(k = k') from fun hc => h hc.symm), alGet,
        if_neg (show ¬(q.1 = k') from by
          rw [hk]; exact fun hc => h hc.symm)]
    · rw [alSet, if_neg hk]
      by_cases hk' : q.1 = k'
      · rw [alGet, if_pos hk', alGet, if_pos hk']
      · rw [alGet, if_neg hk', alGet, if_neg hk', ih]

theorem alGet_eq_none_iff {V : Type} (m : List (String × V)) (k : String) :
    alGet m k = none ↔ ∀ q ∈ m, q.1 ≠ k := by
  induction m with
  | nil => simp [alGet]
  | cons q rest ih =>
    by_cases hk : q.1 = k
    · simp [alGet, hk]
    · simp [alGet, hk, ih]

theorem assignList_not_key {V : Type} (t : List (String × V))
    (news : List (String × V)) (k : String) (h : ∀ q ∈ news, q.1 ≠ k) :
    alGet (assignList t news) k = alGet t k := by
  induction news generalizing t with
  | nil => rfl
  | cons q rest ih =>
    rw [assignList]
    rw [ih _ (fun q' hq' => h q' (List.mem_cons_of_mem q hq'))]
    exact alGet_alSet_ne t q.1 k q.2
      (Ne.symm (h q (List.mem_cons_self q rest)))

theorem assignList_mem_nodup {V : Type} (t : List (String × V))
    (news : List (String × V)) (k : String) (v : V)
    (hnd : (news.map Prod.fst).Nodup) (h : alGet news k = some v) :
    alGet (assignList t news) k = some v := by
  induction news generalizing t with
  | nil => simp [alGet] at h
  | cons q rest ih =>
    rw [assignList]
    have hnd' : (q.1 :: rest.map Prod.fst).Nodup := by simpa using hnd
    have hq1 : q.1 ∉ rest.map Prod.fst := (List.nodup_cons.mp hnd').1
    have hndr : (rest.map Prod.fst).Nodup := (List.nodup_cons.mp hnd').2
    by_cases hk : q.1 = k
    · rw [alGet, if_pos hk] at h
      cases h
      have hrest : ∀ q' ∈ rest, q'.1 ≠ k := by
        intro q' hq' hc
        exact hq1 (List.mem_map.mpr
          ⟨q', hq', show q'.1 = q.1 from hc.trans hk.symm⟩)
      rw [assignList_not_key _ _ _ hrest, hk]
      exact alGet_alSet_self t k q.2
    · rw [alGet, if_neg hk] at h
      exact ih _ hndr h

theorem alGet_map_reset {V : Type} (m : List (String × V)) (k : String) :
    alGet (m.map (fun q => (q.1, ("" : String)))) k
      = (alGet m k).map (fun _ => ("" : String)) := by
  induction m with
  | nil => rfl
  | cons q rest ih =>
    by_cases hk : q.1 = k
    · simp [alGet, hk]
    · simp [alGet, hk, ih]

/-! ### The claims -/

/-- C1: for every Element (any state satisfying the element invariant; a
freshly constructed element, with both child lists empty, satisfies it
trivially) and every finite sequence of `appendChild` / `insertBefore` /
`insertAfter` / `removeChild` / `clear` calls that respects the stated
preconditions, after each call the element's `pureChildren` list equals
the order-preserving filter of its `children` list by
`nodeType === ELEMENT`. -/
theorem c1_pureChildren_is_filter_of_children (self : Nat) (L : Bool)
    (s0 : St) (ops : List Op) (h0 : Inv self s0)
    (hpre : preSeq self L s0 ops = true) (i : Nat) :
    (runOps self L s0 (ops.take i)).pureChildren
      = ((runOps self L s0 (ops.take i)).children).filter isElem :=
  (runOps_inv self L s0 (ops.take i) h0 (preSeq_take self L s0 ops hpre i)).1

/-- Witness for C1: a concrete element running a six-call sequence that
appends, inserts before a text node, reorders, removes and clears; the
invariant is checked after the fourth call. -/
theorem c1_witness :
    Inv 1 ⟨[], [], [], []⟩
    ∧ preSeq 1 true ⟨[], [], [], []⟩
        [Op.append ⟨2, 1⟩, Op.append ⟨3, 2⟩, Op.insertB ⟨4, 1⟩ ⟨3, 2⟩,
         Op.append ⟨2, 1⟩, Op.remove ⟨3, 2⟩ false, Op.clearOp] = true
    ∧ (runOps 1 true ⟨[], [], [], []⟩
        ([Op.append ⟨2, 1⟩, Op.append ⟨3, 2⟩, Op.insertB ⟨4, 1⟩ ⟨3, 2⟩,
          Op.append ⟨2, 1⟩, Op.remove ⟨3, 2⟩ false,
          Op.clearOp].take 4)).pureChildren
      = ((runOps 1 true ⟨[], [], [], []⟩
        ([Op.append ⟨2, 1⟩, Op.append ⟨3, 2⟩, Op.insertB ⟨4, 1⟩ ⟨3, 2⟩,
          Op.append ⟨2, 1⟩, Op.remove ⟨3, 2⟩ false,
          Op.clearOp].take 4)).children).filter isElem :=
  ⟨by decide, by decide,
   c1_pureChildren_is_filter_of_children 1 true ⟨[], [], [], []⟩
     [Op.append ⟨2, 1⟩, Op.append ⟨3, 2⟩, Op.insertB ⟨4, 1⟩ ⟨3, 2⟩,
      Op.append ⟨2, 1⟩, Op.remove ⟨3, 2⟩ false, Op.clearOp]
     (by decide) (by decide) 4⟩

/-- C2 fails as stated: `removeChild`'s guard is the truthiness of
`node.parentNode`, not `node.parentNode === this`, and a preserved removal
never clears `parentNode`.  Concretely: after `removeChild(A, preserved)`
the node A is no longer attached, yet a second `removeChild(A, preserved)`
emits `removeElement` again. -/
theorem c2_counterexample :
    (⟨2, 1⟩ : Nd) ∉ ((removeChild 1 true
        ⟨[⟨2, 1⟩], [⟨2, 1⟩], [(2, 1)], []⟩ ⟨2, 1⟩ true).1).children
    ∧ (removeChild 1 true
        (removeChild 1 true ⟨[⟨2, 1⟩], [⟨2, 1⟩], [(2, 1)], []⟩
          ⟨2, 1⟩ true).1
        ⟨2, 1⟩ true).2 = [Cmd.removeElement 2] := by decide

/-- C2 (amended): `removeChild(node, preserved)` erases `node` from
`children` (and, for an Element, from `pureChildren`) and emits a
`removeElement` command (listener permitting) whenever `node.parentNode`
is set — to any parent, not only when node is currently attached to
`this`; when `parentNode` is unset nothing is touched and nothing is
emitted.  Regardless of attachment state, node is destroyed iff
`preserved` is falsy. -/
theorem c2_removeChild_amended (self : Nat) (L : Bool) :
    (∀ (s : St) (n : Nd) (preserved : Bool) (p : Nat),
      pLook s.parentOf n.ref = some p →
      (removeChild self L s n preserved).1.children = eraseFirst n s.children
      ∧ (removeChild self L s n preserved).1.pureChildren
          = (if isElem n then eraseFirst n s.pureChildren
             else s.pureChildren)
      ∧ (removeChild self L s n preserved).2
          = (if isElem n = true ∧ L = true then [Cmd.removeElement n.ref]
             else [])
      ∧ (removeChild self L s n preserved).1.destroyed
          = s.destroyed ++ (if preserved then [] else [n.ref]))
    ∧ (∀ (s : St) (n : Nd) (preserved : Bool),
      pLook s.parentOf n.ref = none →
      (removeChild self L s n preserved).1.children = s.children
      ∧ (removeChild self L s n preserved).1.pureChildren = s.pureChildren
      ∧ (removeChild self L s n preserved).2 = []
      ∧ (removeChild self L s n preserved).1.destroyed
          = s.destroyed ++ (if preserved then [] else [n.ref])) := by
  constructor
  · intro s n preserved p hp
    by_cases he : isElem n
    · by_cases hpr : preserved
      · by_cases hL : L = true
        · simp [removeChild, hp, he, hpr, hL]
        · simp [removeChild, hp, he, hpr, hL]
      · by_cases hL : L = true
        · simp [removeChild, hp, he, hpr, hL]
        · simp [removeChild, hp, he, hpr, hL]
    · by_cases hpr : preserved
      · simp [removeChild, hp, he, hpr]
      · simp [removeChild, hp, he, hpr]
  · intro s n preserved hp
    by_cases hpr : preserved
    · simp [removeChild, hp, hpr]
    · simp [removeChild, hp, hpr]

/-- Witness for the amended C2: the node's parent is element 7, not the
receiver (element 1), yet `removeElement 9` is still emitted. -/
theorem c2_witness :
    pLook (⟨[], [], [(9, 7)], []⟩ : St).parentOf 9 = some 7
    ∧ (removeChild 1 true ⟨[], [], [(9, 7)], []⟩ ⟨9, 1⟩ true).2
        = [Cmd.removeElement 9] := by
  refine ⟨by decide, ?_⟩
  have h := (c2_removeChild_amended 1 true).1 ⟨[], [], [(9, 7)], []⟩
    ⟨9, 1⟩ true 7 (by decide)
  rw [h.2.2.1]
  decide

/-- C3 fails as stated: in `children = [A, T, B]` (A, B Elements, T not),
A is first, not last, among the elements, so `appendChild(A)` changes its
relative order in `pureChildren` (which becomes `[B, A]`) and the code
emits a `moveElement` command. -/
theorem c3_counterexample :
    (appendChild 1 true
        ⟨[⟨2, 1⟩, ⟨3, 3⟩, ⟨4, 1⟩], [⟨2, 1⟩, ⟨4, 1⟩],
         [(2, 1), (3, 1), (4, 1)], []⟩ ⟨2, 1⟩).1.children
      = [⟨3, 3⟩, ⟨4, 1⟩, ⟨2, 1⟩]
    ∧ (appendChild 1 true
        ⟨[⟨2, 1⟩, ⟨3, 3⟩, ⟨4, 1⟩], [⟨2, 1⟩, ⟨4, 1⟩],
         [(2, 1), (3, 1), (4, 1)], []⟩ ⟨2, 1⟩).2 ≠ [] := by decide

/-- C3 (amended): with `P.children = [A, T, B]` and `pureChildren = [A, B]`,
`P.appendChild(A)` moves A to the end of `children` and of `pureChildren`
(`[B, A]`) and emits `moveElement(A.ref, P.ref, 1)` because A's relative
order among the elements changed; `P.appendChild(B)`, whose pure position
is already last, leaves both orderings unchanged and emits nothing. -/
theorem c3_amended_scenario :
    appendChild 1 true
        ⟨[⟨2, 1⟩, ⟨3, 3⟩, ⟨4, 1⟩], [⟨2, 1⟩, ⟨4, 1⟩],
         [(2, 1), (3, 1), (4, 1)], []⟩ ⟨2, 1⟩
      = (⟨[⟨3, 3⟩, ⟨4, 1⟩, ⟨2, 1⟩], [⟨4, 1⟩, ⟨2, 1⟩],
         [(2, 1), (3, 1), (4, 1)], []⟩, [Cmd.moveElement 2 1 1])
    ∧ appendChild 1 true
        ⟨[⟨2, 1⟩, ⟨3, 3⟩, ⟨4, 1⟩], [⟨2, 1⟩, ⟨4, 1⟩],
         [(2, 1), (3, 1), (4, 1)], []⟩ ⟨4, 1⟩
      = (⟨[⟨2, 1⟩, ⟨3, 3⟩, ⟨4, 1⟩], [⟨2, 1⟩, ⟨4, 1⟩],
         [(2, 1), (3, 1), (4, 1)], []⟩, []) := by decide

/-- C4: a node whose `parentNode` is set and is not `this` is rejected by
`appendChild`, `insertBefore` and `insertAfter`: each returns with the
whole state (children, pureChildren, parent map — hence sibling links —
and destroyed set) unchanged and no command emitted. -/
theorem c4_reparent_rejected (self : Nat) (L : Bool) (s : St) (n b a : Nd)
    (p : Nat) (hp : pLook s.parentOf n.ref = some p) (hne : p ≠ self) :
    appendChild self L s n = (s, [])
    ∧ insertBefore self L s n b = (s, [])
    ∧ insertAfter self L s n a = (s, []) := by
  refine ⟨?_, ?_, ?_⟩
  · simp only [appendChild, hp, if_pos hne]
  · simp only [insertBefore, hp, if_pos hne]
  · simp only [insertAfter, hp, if_pos hne]

/-- Witness for C4: node 5 belongs to parent 9; element 1 rejects it. -/
theorem c4_witness :
    pLook (⟨[], [], [(5, 9)], []⟩ : St).parentOf 5 = some 9
    ∧ (9 : Nat) ≠ 1
    ∧ appendChild 1 true ⟨[], [], [(5, 9)], []⟩ ⟨5, 1⟩
        = (⟨[], [], [(5, 9)], []⟩, []) :=
  ⟨by decide, by decide,
   (c4_reparent_rejected 1 true ⟨[], [], [(5, 9)], []⟩ ⟨5, 1⟩ ⟨6, 1⟩ ⟨7, 1⟩
     9 (by decide) (by decide)).1⟩

/-- C9: `clear()` emits, when a listener exists, exactly one
`removeElement` command per entry of `pureChildren`, in that array's
order; every node in `children` is destroyed (clear never preserves), and
both `children` and `pureChildren` are left empty. -/
theorem c9_clear_contract (self : Nat) (L : Bool) (s : St) :
    (clear self L s).2
      = (if L then s.pureChildren.map (fun c => Cmd.removeElement c.ref)
         else [])
    ∧ (clear self L s).1.children = []
    ∧ (clear self L s).1.pureChildren = []
    ∧ (clear self L s).1.destroyed = s.destroyed ++ s.children.map Nd.ref
    ∧ ∀ c ∈ s.children, c.ref ∈ (clear self L s).1.destroyed := by
  refine ⟨rfl, rfl, rfl, rfl, ?_⟩
  intro c hc
  show c.ref ∈ s.destroyed ++ s.children.map Nd.ref
  exact List.mem_append_right _ (List.mem_map.mpr ⟨c, hc, rfl⟩)

theorem bool_tf {b : Bool} (h1 : b = true) (h2 : b = false) : False := by
  rw [h1] at h2
  exact Bool.noConfusion h2

/-- C5: `appendChild(node)` with `node` already a child of `this` moves it
to the end of `children`; an Element is moved to the end of `pureChildren`
as well, and a `moveElement` command with the node's ref, `this.ref` and
the node's new `pureChildren` index is emitted iff the move changed the
node's pure position (it was not already last there) and a listener
exists; appending the current last child changes nothing and emits
nothing. -/
theorem c5_appendChild_reorder (self : Nat) (L : Bool) (s : St) (n : Nd)
    (hp : pLook s.parentOf n.ref = some self)
    (hin : n ∈ s.children)
    (hnd : (s.children.map Nd.ref).Nodup)
    (hQ : s.pureChildren = s.children.filter isElem) :
    (appendChild self L s n).1.children = eraseFirst n s.children ++ [n]
    ∧ (isElem n = true →
        (appendChild self L s n).1.pureChildren
          = eraseFirst n s.pureChildren ++ [n]
        ∧ (appendChild self L s n).2
            = (if s.pureChildren.getLast? = some n ∨ L = false then []
               else [Cmd.moveElement n.ref self
                  (s.pureChildren.length - 1)]))
    ∧ (isElem n = false →
        (appendChild self L s n).1.pureChildren = s.pureChildren
        ∧ (appendChild self L s n).2 = [])
    ∧ (s.children.getLast? = some n →
        (appendChild self L s n).1.children = s.children
        ∧ (appendChild self L s n).1.pureChildren = s.pureChildren
        ∧ (appendChild self L s n).2 = []) := by
  have hndv : s.children.Nodup := hnd.of_map
  have hne : ¬(self ≠ self) := fun hc => hc rfl
  cases hio : idxOf' n s.children with
  | none => exact absurd hin ((idxOf'_eq_none_iff n _).mp hio)
  | some i =>
    obtain ⟨u, v, hl, hlen, hun⟩ := idxOf'_some_split hio
    subst hlen
    have hndl : (u ++ n :: v).Nodup := hl ▸ hndv
    have hnv : n ∉ v :=
      (List.nodup_cons.mp (List.nodup_append.mp hndl).2.1).1
    have hmv := moveIndex_to_end n u v hun
    rw [← hl] at hmv
    have hefl : eraseFirst n s.children = u ++ v := by
      rw [hl]; exact eraseFirst_append_cons v hun
    have hQsp : s.pureChildren
        = u.filter isElem ++ n :: v.filter isElem
        ∨ (isElem n = false
           ∧ s.pureChildren = u.filter isElem ++ v.filter isElem) := by
      by_cases he : isElem n
      · exact Or.inl (by rw [hQ, hl, filter_middle, if_pos (by exact he)])
      · refine Or.inr ⟨by simpa using he, ?_⟩
        rw [hQ, hl, filter_middle, if_neg (by simpa using he)]
    by_cases hv : v = []
    · -- n is the last child already
      rw [if_pos hv] at hmv
      subst hv
      have hchil : (appendChild self L s n).1.children = s.children ∧
          (appendChild self L s n).1.pureChildren = s.pureChildren ∧
          (appendChild self L s n).2 = [] := by
        by_cases he : isElem n
        · rcases hQsp with hQform | ⟨hne2, _⟩
          · have hunP : n ∉ u.filter isElem :=
              not_mem_filter_of_not_mem hun
            have hmvP := moveIndex_to_end n (u.filter isElem) [] hunP
            rw [if_pos rfl] at hmvP
            have hQform' : s.pureChildren = u.filter isElem ++ n :: [] := by
              rw [hQform]; simp
            rw [← hQform'] at hmvP
            refine ⟨?_, ?_, ?_⟩ <;>
              simp only [appendChild, hp, if_neg hne, hmv, hmvP, if_pos he]
          · rw [hne2] at he; exact absurd he (by simp)
        · refine ⟨?_, ?_, ?_⟩ <;>
            simp only [appendChild, hp, if_neg hne, hmv, if_neg he]
      refine ⟨?_, ?_, ?_, fun _ => hchil⟩
      · rw [hchil.1, hefl, hl]
        simp
      · intro he
        refine ⟨?_, ?_⟩
        · rw [hchil.2.1]
          rcases hQsp with hQform | ⟨hne2, _⟩
          · rw [hQform]
            have hunP : n ∉ u.filter isElem :=
              not_mem_filter_of_not_mem hun
            rw [eraseFirst_append_cons _ hunP]
            simp
          · rw [hne2] at he; exact absurd he (by simp)
        · rw [hchil.2.2]
          rcases hQsp with hQform | ⟨hne2, _⟩
          · have hgl : s.pureChildren.getLast? = some n := by
              rw [hQform, getLast?_append_cons]
              simp
            rw [if_pos (Or.inl hgl)]
          · rw [hne2] at he; exact absurd he (by simp)
      · intro he
        exact ⟨hchil.2.1, hchil.2.2⟩
    · -- n actually moves
      rw [if_neg hv] at hmv
      have hglv : s.children.getLast? ≠ some n := by
        rw [hl, getLast?_append_cons]
        cases hvc : v with
        | nil => exact absurd hvc hv
        | cons z zs =>
          rw [List.getLast?_cons_cons]
          intro hc
          have hy := mem_of_getLast?_cons hc
          rw [← hvc] at hy
          exact hnv hy
      by_cases he : isElem n
      · rcases hQsp with hQform | ⟨hne2, _⟩
        · have hunP : n ∉ u.filter isElem :=
            not_mem_filter_of_not_mem hun
          have hnvP : n ∉ v.filter isElem :=
            not_mem_filter_of_not_mem hnv
          have hmvP := moveIndex_to_end n (u.filter isElem)
            (v.filter isElem) hunP
          rw [← hQform] at hmvP
          by_cases hfv : v.filter isElem = []
          · rw [if_pos hfv] at hmvP
            have hglP : s.pureChildren.getLast? = some n := by
              rw [hQform, hfv, getLast?_append_cons]
              simp
            refine ⟨?_, fun _ => ⟨?_, ?_⟩, fun hc => (bool_tf he hc).elim,
              fun hgl => absurd hgl hglv⟩
            · simp only [appendChild, hp, if_neg hne, hmv, hmvP, if_pos he]
              rw [hefl]
            · simp only [appendChild, hp, if_neg hne, hmv, hmvP, if_pos he]
              rw [hQform, hfv, eraseFirst_append_cons _ hunP]
              simp
            · simp only [appendChild, hp, if_neg hne, hmv, hmvP, if_pos he]
              rw [if_pos (Or.inl hglP)]
          · rw [if_neg hfv] at hmvP
            have hglP : s.pureChildren.getLast? ≠ some n := by
              rw [hQform, getLast?_append_cons]
              cases hvc : v.filter isElem with
              | nil => exact absurd hvc hfv
              | cons z zs =>
                rw [List.getLast?_cons_cons]
                intro hc
                have hy := mem_of_getLast?_cons hc
                rw [← hvc] at hy
                exact hnvP hy
            have hlenP : s.pureChildren.length
                = (u.filter isElem).length + (v.filter isElem).length
                  + 1 := by
              rw [hQform, List.length_append, List.length_cons]
              omega
            refine ⟨?_, fun _ => ⟨?_, ?_⟩, fun hc => (bool_tf he hc).elim,
              fun hgl => absurd hgl hglv⟩
            · simp only [appendChild, hp, if_neg hne, hmv, hmvP, if_pos he]
              rw [hefl]
            · simp only [appendChild, hp, if_neg hne, hmv, hmvP, if_pos he]
              rw [hQform, eraseFirst_append_cons _ hunP]
            · simp only [appendChild, hp, if_neg hne, hmv, hmvP, if_pos he]
              by_cases hL : L = true
              · have hcond : ¬(s.pureChildren.getLast? = some n
                    ∨ L = false) := by
                  intro hc
                  rcases hc with hc | hc
                  · exact hglP hc
                  · rw [hL] at hc; exact Bool.noConfusion hc
                rw [if_pos hL, if_neg hcond, hlenP]
                have harith : (u.filter isElem).length
                    + (v.filter isElem).length + 1 - 1
                    = (u.filter isElem).length
                      + (v.filter isElem).length := by omega
                rw [harith]
              · have hLf : L = false := by
                  cases L
                  · rfl
                  · exact absurd rfl hL
                rw [if_neg hL, if_pos (Or.inr hLf)]
        · rw [hne2] at he; exact absurd he (by simp)
      · rcases hQsp with hQform | ⟨_, hQform⟩
        · rw [hQform] at hQ
          have : isElem n = true := by
            have hmem : n ∈ s.children.filter isElem := by
              rw [← hQ]
              exact List.mem_append_right _ (List.mem_cons_self _ _)
            exact List.of_mem_filter hmem
          exact absurd this he
        · refine ⟨?_, fun hc => absurd hc he, fun _ => ⟨?_, ?_⟩,
            fun hgl => absurd hgl hglv⟩
          · simp only [appendChild, hp, if_neg hne, hmv, if_neg he]
            rw [hefl]
          · simp only [appendChild, hp, if_neg hne, hmv, if_neg he]
          · simp only [appendChild, hp, if_neg hne, hmv, if_neg he]

/-- C6: `insertBefore(node, before)` is a no-op when `node = before` or
`before` is node's next sibling, and `insertAfter(node, after)` is a no-op
when `node = after` or `after` is node's previous sibling; otherwise, for a
detached Element node, `insertBefore` places the node in `pureChildren`
immediately before the position of the nearest Element at or after
`before` (at the end when none exists), `insertAfter` places it
immediately after the position of the nearest Element at or before `after`
(at the start when none exists), and an `addElement` command carrying that
`pureChildren` index is emitted when a listener exists. -/
theorem c6_insert_positioning (self : Nat) (L : Bool) :
    (∀ (s : St) (n b : Nd), (n = b ∨ nextSibling s.children n = some b) →
      insertBefore self L s n b = (s, []))
    ∧ (∀ (s : St) (n a : Nd),
        (n = a ∨ previousSibling s.children n = some a) →
      insertAfter self L s n a = (s, []))
    ∧ (∀ (s : St) (n b : Nd), pLook s.parentOf n.ref = none →
        n ∉ s.children → b ∈ s.children → isElem n = true →
        (insertBefore self L s n b).1.children
          = insertAt n ((idxOf' b s.children).getD s.children.length)
              s.children
        ∧ (insertBefore self L s n b).1.pureChildren
          = insertAt n (pureInsertIndexBefore s b) s.pureChildren
        ∧ (insertBefore self L s n b).2
          = (if L then [Cmd.addElement n.ref self
              ((pureInsertIndexBefore s b : Int))] else []))
    ∧ (∀ (s : St) (n a : Nd), pLook s.parentOf n.ref = none →
        n ∉ s.children → a ∈ s.children → isElem n = true →
        s.pureChildren = s.children.filter isElem →
        (insertAfter self L s n a).1.children
          = insertAt n ((idxOf' a s.children).getD s.children.length + 1)
              s.children
        ∧ (insertAfter self L s n a).1.pureChildren
          = insertAt n (pureInsertIndexAfter s a) s.pureChildren
        ∧ (insertAfter self L s n a).2
          = (if L then [Cmd.addElement n.ref self
              ((pureInsertIndexAfter s a : Int))] else [])) := by
  refine ⟨?_, ?_, ?_, ?_⟩
  · intro s n b hdeg
    cases hpl : pLook s.parentOf n.ref with
    | none => simp only [insertBefore, hpl, if_pos hdeg]
    | some p =>
      by_cases hps : p = self
      · subst hps
        have hne : ¬(p ≠ p) := fun hc => hc rfl
        simp only [insertBefore, hpl, if_neg hne, if_pos hdeg]
      · simp only [insertBefore, hpl, if_pos hps]
  · intro s n a hdeg
    cases hpl : pLook s.parentOf n.ref with
    | none => simp only [insertAfter, hpl, if_pos hdeg]
    | some p =>
      by_cases hps : p = self
      · subst hps
        have hne : ¬(p ≠ p) := fun hc => hc rfl
        simp only [insertAfter, hpl, if_neg hne, if_pos hdeg]
      · simp only [insertAfter, hpl, if_pos hps]
  · intro s n b hpl hnin hb he
    have hnb : n ≠ b := fun hc => hnin (hc ▸ hb)
    have hns : nextSibling s.children n = none :=
      nextSibling_of_not_mem hnin
    have hdeg : ¬(n = b ∨ nextSibling s.children n = some b) := by
      intro hc
      rcases hc with hc | hc
      · exact hnb hc
      · rw [hns] at hc; exact Option.noConfusion hc
    cases hib : idxOf' b s.children with
    | none => exact absurd hb ((idxOf'_eq_none_iff b _).mp hib)
    | some k =>
      obtain ⟨u, w, hl, hlen, hbu⟩ := idxOf'_some_split hib
      subst hlen
      have hins : insertAt n u.length s.children = u ++ n :: b :: w := by
        rw [hl]; exact insertAt_prefix n u (b :: w)
      have hbun : b ∉ u ++ [n] := by
        intro hc
        rcases List.mem_append.mp hc with hc | hc
        · exact hbu hc
        · simp only [List.mem_singleton] at hc
          exact hnb hc.symm
      have hnx : nextElement (u ++ n :: b :: w) b
          = (b :: w).find? isElem := by
        have hform : u ++ n :: b :: w = (u ++ [n]) ++ b :: w := by simp
        rw [hform, nextElement_append_cons w hbun]
      have hnx0 : nextElement s.children b = (b :: w).find? isElem := by
        rw [hl]; exact nextElement_append_cons w hbu
      cases hfind : (b :: w).find? isElem with
      | some e =>
        have hpidx : pureInsertIndexBefore s b
            = (idxOf' e s.pureChildren).getD s.pureChildren.length := by
          rw [pureInsertIndexBefore, hnx0, hfind]
        have hle : pureInsertIndexBefore s b ≤ s.pureChildren.length := by
          rw [hpidx]
          cases hidx : idxOf' e s.pureChildren with
          | none => exact le_refl _
          | some i2 =>
            simp only [Option.getD_some]
            exact le_of_lt (idxOf'_lt_length hidx)
        have hmin : min ((idxOf' e s.pureChildren).getD
              s.pureChildren.length) s.pureChildren.length
            = pureInsertIndexBefore s b := by
          rw [← hpidx]
          exact min_eq_left (hpidx ▸ hle)
        refine ⟨?_, ?_, ?_⟩
        · simp only [insertBefore, hpl, if_neg hdeg, hib, Option.getD_some,
            insertIndex, if_pos he]
        · simp only [insertBefore, hpl, if_neg hdeg, hib, Option.getD_some,
            insertIndex, if_pos he, hins, hnx, hfind, hpidx]
        · simp only [insertBefore, hpl, if_neg hdeg, hib, Option.getD_some,
            insertIndex, if_pos he, hins, hnx, hfind, hmin]
      | none =>
        have hpidx : pureInsertIndexBefore s b = s.pureChildren.length := by
          rw [pureInsertIndexBefore, hnx0, hfind]
        have hmin : min s.pureChildren.length s.pureChildren.length
            = pureInsertIndexBefore s b := by
          rw [hpidx]
          exact min_self _
        refine ⟨?_, ?_, ?_⟩
        · simp only [insertBefore, hpl, if_neg hdeg, hib, Option.getD_some,
            insertIndex, if_pos he]
        · simp only [insertBefore, hpl, if_neg hdeg, hib, Option.getD_some,
            insertIndex, if_pos he, hins, hnx, hfind, hpidx]
        · simp only [insertBefore, hpl, if_neg hdeg, hib, Option.getD_some,
            insertIndex, if_pos he, hins, hnx, hfind, hmin]
  · intro s n a hpl hnin ha he hQ
    have hna : n ≠ a := fun hc => hnin (hc ▸ ha)
    have hpsn : previousSibling s.children n = none :=
      previousSibling_of_not_mem hnin
    have hdeg : ¬(n = a ∨ previousSibling s.children n = some a) := by
      intro hc
      rcases hc with hc | hc
      · exact hna hc
      · rw [hpsn] at hc; exact Option.noConfusion hc
    cases hia : idxOf' a s.children with
    | none => exact absurd ha ((idxOf'_eq_none_iff a _).mp hia)
    | some k =>
      obtain ⟨u, w, hl, hlen, hau⟩ := idxOf'_some_split hia
      subst hlen
      have hins : insertAt n (u.length + 1) s.children
          = (u ++ [a]) ++ n :: w := by
        rw [hl]
        have h1 : u ++ a :: w = (u ++ [a]) ++ w := by simp
        have h2 : u.length + 1 = (u ++ [a]).length := by simp
        rw [h1, h2]
        exact insertAt_prefix n (u ++ [a]) w
      have hprev : previousElement ((u ++ [a]) ++ n :: w) a
          = ((u ++ [a]).reverse).find? isElem := by
        have hform : (u ++ [a]) ++ n :: w = u ++ a :: (n :: w) := by simp
        rw [hform, previousElement_append_cons _ hau]
      have hprev0 : previousElement s.children a
          = ((u ++ [a]).reverse).find? isElem := by
        rw [hl]; exact previousElement_append_cons w hau
      cases hfind : ((u ++ [a]).reverse).find? isElem with
      | some e =>
        have hee : isElem e = true := List.find?_some hfind
        have hech : e ∈ s.children := by
          have h1 : e ∈ u ++ [a] :=
            List.mem_reverse.mp (List.mem_of_find?_eq_some hfind)
          rw [hl]
          rcases List.mem_append.mp h1 with h2 | h2
          · exact List.mem_append_left _ h2
          · simp only [List.mem_singleton] at h2
            exact List.mem_append_right _ (h2 ▸ List.mem_cons_self a w)
        have hep : e ∈ s.pureChildren := by
          rw [hQ]
          exact List.mem_filter.mpr ⟨hech, hee⟩
        cases hidx : idxOf' e s.pureChildren with
        | none => exact absurd hep ((idxOf'_eq_none_iff e _).mp hidx)
        | some i2 =>
          have hti : (((i2 : Int)) + 1).toNat = i2 + 1 := by omega
          have hpia : pureInsertIndexAfter s a = i2 + 1 := by
            simp only [pureInsertIndexAfter, hprev0, hfind, hidx,
              Option.getD_some]
          have hle : i2 + 1 ≤ s.pureChildren.length :=
            idxOf'_lt_length hidx
          have hmin : min (i2 + 1) s.pureChildren.length
              = pureInsertIndexAfter s a := by
            rw [hpia]
            exact min_eq_left hle
          refine ⟨?_, ?_, ?_⟩
          · simp only [insertAfter, hpl, if_neg hdeg, hia, Option.getD_some,
              insertIndex, if_pos he]
          · simp only [insertAfter, hpl, if_neg hdeg, hia, insertIndex,
              if_pos he, hins, hprev, hfind, hidx, hti, hpia]
          · simp only [insertAfter, hpl, if_neg hdeg, hia, insertIndex,
              if_pos he, hins, hprev, hfind, hidx, hti, hmin]
      | none =>
        have hti : (((-1 : Int)) + 1).toNat = 0 := by omega
        have hpia : pureInsertIndexAfter s a = 0 := by
          simp only [pureInsertIndexAfter, hprev0, hfind]
        have hmin : min 0 s.pureChildren.length
            = pureInsertIndexAfter s a := by
          rw [hpia]
          exact min_eq_left (Nat.zero_le _)
        refine ⟨?_, ?_, ?_⟩
        · simp only [insertAfter, hpl, if_neg hdeg, hia, Option.getD_some,
            insertIndex, if_pos he]
        · simp only [insertAfter, hpl, if_neg hdeg, hia, insertIndex,
            if_pos he, hins, hprev, hfind, hti, hpia]
        · simp only [insertAfter, hpl, if_neg hdeg, hia, insertIndex,
            if_pos he, hins, hprev, hfind, hti, hmin]

/-- Witness for C6: in `P.children = [A, T]` with `pureChildren = [A]`,
`insertBefore(A, T)` is a no-op (T is A's next sibling), and inserting the
detached Element B after the non-Element T lands right after A in
`pureChildren` and emits `addElement` with that index. -/
theorem c6_witness :
    insertBefore 1 true ⟨[⟨2, 1⟩, ⟨3, 3⟩], [⟨2, 1⟩], [(2, 1), (3, 1)], []⟩
        ⟨2, 1⟩ ⟨3, 3⟩
      = (⟨[⟨2, 1⟩, ⟨3, 3⟩], [⟨2, 1⟩], [(2, 1), (3, 1)], []⟩, [])
    ∧ (insertAfter 1 true
        ⟨[⟨2, 1⟩, ⟨3, 3⟩], [⟨2, 1⟩], [(2, 1), (3, 1)], []⟩ ⟨4, 1⟩ ⟨3, 3⟩).2
      = [Cmd.addElement 4 1 ((pureInsertIndexAfter
          ⟨[⟨2, 1⟩, ⟨3, 3⟩], [⟨2, 1⟩], [(2, 1), (3, 1)], []⟩ ⟨3, 3⟩ : Int))] :=
  ⟨(c6_insert_positioning 1 true).1 _ _ _ (by decide),
   by
    have h := ((c6_insert_positioning 1 true).2.2.2
      ⟨[⟨2, 1⟩, ⟨3, 3⟩], [⟨2, 1⟩], [(2, 1), (3, 1)], []⟩ ⟨4, 1⟩ ⟨3, 3⟩
      (by decide) (by decide) (by decide) (by decide) (by decide)).2.2
    rw [h]
    rfl⟩

/-- Witness for C5: reordering A in `[A, T, B]` with a listener present. -/
theorem c5_witness :
    pLook (⟨[⟨2, 1⟩, ⟨3, 3⟩, ⟨4, 1⟩], [⟨2, 1⟩, ⟨4, 1⟩],
      [(2, 1), (3, 1), (4, 1)], []⟩ : St).parentOf 2 = some 1
    ∧ (appendChild 1 true
        ⟨[⟨2, 1⟩, ⟨3, 3⟩, ⟨4, 1⟩], [⟨2, 1⟩, ⟨4, 1⟩],
         [(2, 1), (3, 1), (4, 1)], []⟩ ⟨2, 1⟩).1.children
      = eraseFirst ⟨2, 1⟩ [⟨2, 1⟩, ⟨3, 3⟩, ⟨4, 1⟩] ++ [⟨2, 1⟩] := by
  refine ⟨by decide, ?_⟩
  have h := (c5_appendChild_reorder 1 true
    ⟨[⟨2, 1⟩, ⟨3, 3⟩, ⟨4, 1⟩], [⟨2, 1⟩, ⟨4, 1⟩],
     [(2, 1), (3, 1), (4, 1)], []⟩ ⟨2, 1⟩
    (by decide) (by decide) (by decide) (by decide)).1
  exact h

/-- C7: `setAttr(key, value, silent)` is a no-op on the map and the bridge
when `attr[key] === value` and `silent` is not explicitly `false`; otherwise
it writes `attr[key] = value` and emits `setAttr(ref, key, value)` if and
only if `silent` is not truthy and a listener exists.  Two identical
`setAttr(k, v)` calls with `silent` omitted dedupe (the second is a no-op),
while `setAttr(k, v, false)` always re-emits even when `attr[k]` already
equals `v`.  `setStyle` satisfies the same contract over the style map. -/
theorem c7_setAttr_setStyle_contract (ref : Nat) (L : Bool) :
    (∀ (attr : List (String × String)) (k v : String) (silent : Option Bool),
      alGet attr k = some v → silent ≠ some false →
      setAttr ref L attr k v silent = (attr, []))
    ∧ (∀ (attr : List (String × String)) (k v : String)
        (silent : Option Bool),
      ¬(alGet attr k = some v ∧ silent ≠ some false) →
      (setAttr ref L attr k v silent).1 = alSet attr k v
      ∧ (setAttr ref L attr k v silent).2
        = (if silent ≠ some true ∧ L = true
            then [Cmd.setAttr ref k v] else []))
    ∧ (∀ (attr : List (String × String)) (k v : String),
      setAttr ref L (setAttr ref L attr k v none).1 k v none
        = ((setAttr ref L attr k v none).1, []))
    ∧ (∀ (attr : List (String × String)) (k v : String),
      (setAttr ref true attr k v (some false)).2 = [Cmd.setAttr ref k v])
    ∧ (∀ (style : List (String × String)) (k v : String)
        (silent : Option Bool),
      alGet style k = some v → silent ≠ some false →
      setStyle ref L style k v silent = (style, []))
    ∧ (∀ (style : List (String × String)) (k v : String)
        (silent : Option Bool),
      ¬(alGet style k = some v ∧ silent ≠ some false) →
      (setStyle ref L style k v silent).1 = alSet style k v
      ∧ (setStyle ref L style k v silent).2
        = (if silent ≠ some true ∧ L = true
            then [Cmd.setStyle ref k v] else [])) := by
  have hset : ∀ (attr : List (String × String)) (k v : String)
      (silent : Option Bool),
      ¬(alGet attr k = some v ∧ silent ≠ some false) →
      (setAttr ref L attr k v silent).1 = alSet attr k v
      ∧ (setAttr ref L attr k v silent).2
        = (if silent ≠ some true ∧ L = true
            then [Cmd.setAttr ref k v] else []) := by
    intro attr k v silent hng
    by_cases hts : silent = some true
    · have hc : ¬(silent ≠ some true ∧ L = true) := fun hcc => hcc.1 hts
      refine ⟨?_, ?_⟩ <;>
        simp only [setAttr, if_neg hng, if_pos hts, if_neg hc]
    · by_cases hL : L = true
      · have hc : silent ≠ some true ∧ L = true := ⟨hts, hL⟩
        refine ⟨?_, ?_⟩ <;>
          simp only [setAttr, if_neg hng, if_neg hts, if_pos hc, if_pos hL]
      · have hc : ¬(silent ≠ some true ∧ L = true) := fun hcc => hL hcc.2
        refine ⟨?_, ?_⟩ <;>
          simp only [setAttr, if_neg hng, if_neg hts, if_neg hc, if_neg hL]
  refine ⟨?_, hset, ?_, ?_, ?_, ?_⟩
  · intro attr k v silent h1 h2
    rw [setAttr, if_pos ⟨h1, h2⟩]
  · intro attr k v
    have hself : alGet (setAttr ref L attr k v none).1 k = some v := by
      by_cases hg : alGet attr k = some v
        ∧ (none : Option Bool) ≠ some false
      · rw [setAttr, if_pos hg]
        exact hg.1
      · rw [(hset attr k v none hg).1]
        exact alGet_alSet_self attr k v
    rw [setAttr, if_pos ⟨hself, by decide⟩]
  · intro attr k v
    have hng : ¬(alGet attr k = some v
        ∧ (some false : Option Bool) ≠ some false) :=
      fun hc => hc.2 rfl
    simp only [setAttr, if_neg hng, if_neg (by decide :
      ¬((some false : Option Bool) = some true)), if_pos rfl]
    rw [if_pos trivial]
  · intro style k v silent h1 h2
    rw [setStyle, if_pos ⟨h1, h2⟩]
  · intro style k v silent hng
    by_cases hts : silent = some true
    · have hc : ¬(silent ≠ some true ∧ L = true) := fun hcc => hcc.1 hts
      refine ⟨?_, ?_⟩ <;>
        simp only [setStyle, if_neg hng, if_pos hts, if_neg hc]
    · by_cases hL : L = true
      · have hc : silent ≠ some true ∧ L = true := ⟨hts, hL⟩
        refine ⟨?_, ?_⟩ <;>
          simp only [setStyle, if_neg hng, if_neg hts, if_pos hc, if_pos hL]
      · have hc : ¬(silent ≠ some true ∧ L = true) := fun hcc => hL hcc.2
        refine ⟨?_, ?_⟩ <;>
          simp only [setStyle, if_neg hng, if_neg hts, if_neg hc, if_neg hL]

/-- Witness for C7: with `x` already `1`, a plain `setAttr` is a no-op but
`setAttr(x, 1, false)` still emits; a fresh write emits exactly once. -/
theorem c7_witness :
    setAttr 7 true [("x", "1")] "x" "1" none = ([("x", "1")], [])
    ∧ (setAttr 7 true [] "x" "1" none).1 = alSet [] "x" "1"
    ∧ (setAttr 7 true [("x", "1")] "x" "1" (some false)).2
      = [Cmd.setAttr 7 "x" "1"]
    ∧ setAttr 7 true (setAttr 7 true [] "x" "1" none).1 "x" "1" none
      = ((setAttr 7 true [] "x" "1" none).1, []) :=
  ⟨(c7_setAttr_setStyle_contract 7 true).1 [("x", "1")] "x" "1" none
      (by decide) (by decide),
   ((c7_setAttr_setStyle_contract 7 true).2.1 [] "x" "1" none
      (by decide)).1,
   (c7_setAttr_setStyle_contract 7 true).2.2.2.1 [("x", "1")] "x" "1",
   (c7_setAttr_setStyle_contract 7 true).2.2.1 [] "x" "1"⟩

/-- C8: `setClassStyle(newClassStyle)` resets every key of the current
`classStyle` to the empty string and merges the new mapping on top; when a
listener exists it unconditionally emits one `setStyles` command carrying
the entire merged view `toStyle()` (class entries overridden by own style
entries on collision); a key present before a call that omits it persists
with value `""` instead of disappearing. -/
theorem c8_setClassStyle_contract (ref : Nat) (L : Bool) :
    (∀ (cs st newCS : List (String × String)),
      (setClassStyle ref L cs st newCS).1
        = assignList (cs.map (fun p => (p.1, ""))) newCS
      ∧ (setClassStyle ref L cs st newCS).2
        = (if L then [Cmd.setStyles ref
            (toStyle (setClassStyle ref L cs st newCS).1 st)] else []))
    ∧ (∀ (cs st newCS : List (String × String)) (k : String),
      alGet cs k ≠ none → alGet newCS k = none →
      alGet (setClassStyle ref L cs st newCS).1 k = some "")
    ∧ (∀ (cs st : List (String × String)) (k v : String),
      (st.map Prod.fst).Nodup → alGet st k = some v →
      alGet (toStyle cs st) k = some v) := by
  refine ⟨fun cs st newCS => ⟨rfl, rfl⟩, ?_, ?_⟩
  · intro cs st newCS k hcs hnew
    have h1 : alGet (setClassStyle ref L cs st newCS).1 k
        = alGet (cs.map (fun p => (p.1, ""))) k :=
      assignList_not_key _ newCS k ((alGet_eq_none_iff newCS k).mp hnew)
    rw [h1, alGet_map_reset]
    cases hg : alGet cs k with
    | none => exact absurd hg hcs
    | some w => rfl
  · intro cs st k v hnd hst
    exact assignList_mem_nodup _ st k v hnd hst

/-- Witness for C8: after `setClassStyle({color: red})` then
`setClassStyle({})`, `color` persists with value `""`; an own-style entry
wins in the merged `toStyle` view. -/
theorem c8_witness :
    alGet (setClassStyle 7 true [("color", "red")] [("f", "12")] []).1
        "color" = some ""
    ∧ alGet (toStyle [("f", "10")] [("f", "12")]) "f" = some "12" :=
  ⟨(c8_setClassStyle_contract 7 true).2.1 [("color", "red")] [("f", "12")]
      [] "color" (by decide) (by decide),
   (c8_setClassStyle_contract 7 true).2.2 [("f", "10")] [("f", "12")] "f"
      "12" (by decide) (by decide)⟩

/-- C10: with a listener present, `addEvent(type, handler)` leaves the
event map and the bridge untouched exactly when a truthy handler is
already stored for `type`; storing a falsy handler still updates the map
and emits an `addEvent` command, and does not stop a later `addEvent` for
the same type from overwriting the entry and emitting again. -/
theorem c10_addEvent_guard (ref : Nat) (ty : String) (h : Handler) :
    (∀ (L : Bool) (event : List (String × Handler)),
      (alGet event ty).map Handler.truthy = some true →
      addEvent ref L event ty h = (event, []))
    ∧ (∀ (event : List (String × Handler)),
      addEvent ref true event ty h = (event, []) →
      (alGet event ty).map Handler.truthy = some true)
    ∧ (∀ (event : List (String × Handler)),
      ¬((alGet event ty).map Handler.truthy = some true) →
      addEvent ref true event ty h
        = (alSet event ty h, [Cmd.addEvent ref ty]))
    ∧ (∀ (event : List (String × Handler)) (g : Handler),
      g.truthy = false →
      ¬((alGet event ty).map Handler.truthy = some true) →
      addEvent ref true (addEvent ref true event ty g).1 ty h
        = (alSet (addEvent ref true event ty g).1 ty h,
           [Cmd.addEvent ref ty])) := by
  have hC : ∀ (g : Handler) (event : List (String × Handler)),
      ¬((alGet event ty).map Handler.truthy = some true) →
      addEvent ref true event ty g
        = (alSet event ty g, [Cmd.addEvent ref ty]) := by
    intro g event hst
    have hstored : (match alGet event ty with
        | some g0 => g0.truthy
        | none => false) = false := by
      cases hg : alGet event ty with
      | none => rfl
      | some g0 =>
        cases htr : g0.truthy with
        | false => exact htr
        | true => exact absurd (by rw [hg]; simp [htr]) hst
    simp [addEvent, hstored]
  refine ⟨?_, ?_, hC h, ?_⟩
  · intro L event hst
    cases hg : alGet event ty with
    | none => rw [hg] at hst; exact Option.noConfusion hst
    | some g0 =>
      rw [hg] at hst
      have htr : g0.truthy = true := by simpa using hst
      simp [addEvent, hg, htr]
  · intro event heq
    by_cases hst : (alGet event ty).map Handler.truthy = some true
    · exact hst
    · exfalso
      rw [hC h event hst] at heq
      have h2 := congrArg Prod.snd heq
      simp at h2
  · intro event g hgf hst
    have h1 : (addEvent ref true event ty g).1 = alSet event ty g := by
      rw [hC g event hst]
    have h2 : ¬((alGet (addEvent ref true event ty g).1 ty).map
        Handler.truthy = some true) := by
      rw [h1, alGet_alSet_self]
      simp [hgf]
    exact hC h _ h2

/-- Witness for C10: a stored truthy handler blocks the call; a falsy one
is stored but still emits, and the next call overwrites and emits again. -/
theorem c10_witness :
    addEvent 5 true [("click", ⟨1, true⟩)] "click" ⟨2, true⟩
      = ([("click", ⟨1, true⟩)], [])
    ∧ addEvent 5 true [] "click" ⟨1, false⟩
      = (alSet [] "click" ⟨1, false⟩, [Cmd.addEvent 5 "click"])
    ∧ addEvent 5 true (addEvent 5 true [] "click" ⟨1, false⟩).1 "click"
        ⟨2, true⟩
      = (alSet (addEvent 5 true [] "click" ⟨1, false⟩).1 "click" ⟨2, true⟩,
         [Cmd.addEvent 5 "click"]) :=
  ⟨(c10_addEvent_guard 5 "click" ⟨2, true⟩).1 true [("click", ⟨1, true⟩)]
      (by decide),
   (c10_addEvent_guard 5 "click" ⟨1, false⟩).2.2.1 [] (by decide),
   (c10_addEvent_guard 5 "click" ⟨2, true⟩).2.2.2 [] ⟨1, false⟩ (by decide)
      (by decide)⟩

end Vdom
